import Mathlib

/-!
# rlottie model loader: `ModelCache` and the `model::load...` entry points

Shallow embedding of `src/lottie/lottieloader.cpp`, for the build in which
`LOTTIE_CACHE_SUPPORT` is defined and `_WIN32` is not.

* `std::string` is a Lean `String`; one `Char` stands for one C++ `char`, so `size()` is
  `String.length`.
* `std::shared_ptr<model::Composition>` is `Option Composition` (`none` is `nullptr`).
* `std::unordered_map` is the list of its entries in iteration order, with distinct keys.
  The order in which a newly inserted key shows up is left to the implementation by the
  C++ standard; it is supplied by a `Layout`, and every theorem holds for all layouts.
* The mutex is not modelled: every operation is one atomic step on the cache state.
* The parser, the file system and the address of the path buffer are inputs of each call
  (`Env`); the collaborator calls made by a load are recorded in a trace.
* A stream that opens is described by the position `tellg()` reports at its end and by
  the characters read from it; the two need not agree (special files, files that change).
  An exception that leaves a load is recorded as the last event of its trace.
-/

namespace Rlottie

/-- Modelled from the spec: `model::Composition` is declared in `lottiemodel.h`; the loader
only passes it around. A value identifies one parsed composition object. -/
structure Composition where
  ident : Nat
deriving DecidableEq, Repr

/-- Modelled from the spec: `model::ColorFilter` is declared in `lottiemodel.h`. The loader
only hands it on to the parser, so a value is a bare handle. -/
structure ColorFilter where
  ident : Nat
deriving DecidableEq, Repr

/-- One element of `mHash`: the key and the shared pointer stored under it. -/
abbrev Entry := String × Option Composition

/-- The keys of a list of entries, in iteration order. -/
def keysOf (l : List Entry) : List String := l.map Prod.fst

/-- Search of a key in the entries: `none` plays the role of `end()`. -/
def lookup (key : String) : List Entry → Option (Option Composition)
  | [] => none
  | (k, v) :: rest => if k = key then some v else lookup key rest

/-- Assignment through the reference returned by `operator[]` for a key that is present:
the element stays where it is and only its value changes. -/
def setValue (key : String) (value : Option Composition) : List Entry → List Entry
  | [] => []
  | (k, v) :: rest =>
    if k = key then (k, value) :: rest else (k, v) :: setValue key value rest

/-- Where the implementation of `std::unordered_map` puts things: after the insertion of a
new element (given at the head of the argument) the iteration order is some rearrangement
of the elements, possibly after a rehash. -/
structure Layout where
  arrange : List Entry → List Entry
  perm : ∀ l, List.Perm (arrange l) l

/-- The layout that puts a new element at the beginning of the iteration order. -/
def Layout.front : Layout := ⟨id, fun _ => List.Perm.refl _⟩

/-- The layout that puts a new element at the end of the iteration order. -/
def Layout.back : Layout :=
  ⟨fun l => l.tail ++ l.take 1, fun l => by
    cases l with
    | nil => simp
    | cons a t => simp⟩

/-- The map `std::unordered_map<std::string, std::shared_ptr<model::Composition>>`: its
entries in iteration order; no key occurs twice. -/
structure UnorderedMap where
  entries : List Entry
  nodup : (keysOf entries).Nodup

namespace UnorderedMap

/-- A default-constructed map. -/
def empty : UnorderedMap := ⟨[], List.nodup_nil⟩

/-- Number of elements, `size()`. -/
def size (m : UnorderedMap) : Nat := m.entries.length

/-- Member `find(key)`: the mapped value, or `none` for `end()`. -/
def find (m : UnorderedMap) (key : String) : Option (Option Composition) :=
  lookup key m.entries

/-- Whether a key is in the map. -/
def contains (m : UnorderedMap) (key : String) : Prop := key ∈ keysOf m.entries

instance (m : UnorderedMap) (key : String) : Decidable (m.contains key) :=
  inferInstanceAs (Decidable (key ∈ keysOf m.entries))

/-- Call `erase(cbegin())`: the first element in iteration order is removed, the others
keep their relative order. -/
def eraseBegin (m : UnorderedMap) : UnorderedMap :=
  ⟨m.entries.tail, by
    have h := m.nodup
    unfold keysOf at h ⊢
    exact h.sublist ((List.tail_sublist m.entries).map Prod.fst)⟩

/-- Statement `m[key] = value`: a present key gets the new value in place, an absent key is
inserted and the layout decides the resulting iteration order. -/
def assign (L : Layout) (m : UnorderedMap) (key : String) (value : Option Composition) :
    UnorderedMap :=
  if h : key ∈ keysOf m.entries then
    ⟨setValue key value m.entries, by
      have hk : keysOf (setValue key value m.entries) = keysOf m.entries := by
        unfold keysOf
        induction m.entries with
        | nil => rfl
        | cons e t ih =>
          obtain ⟨k, v⟩ := e
          by_cases hkk : k = key <;> simp [setValue, hkk, ih]
      rw [hk]
      exact m.nodup⟩
  else
    ⟨L.arrange ((key, value) :: m.entries), by
      have hp : List.Perm (keysOf (L.arrange ((key, value) :: m.entries)))
          (keysOf ((key, value) :: m.entries)) := (L.perm _).map Prod.fst
      refine hp.nodup_iff.mpr ?_
      unfold keysOf at h ⊢
      exact List.nodup_cons.mpr ⟨h, m.nodup⟩⟩

/-- Member `clear()`. -/
def clear (_m : UnorderedMap) : UnorderedMap := empty

end UnorderedMap

/-- The singleton `ModelCache`: the map `mHash` and the bound `mcacheSize` (a `size_t`). -/
structure ModelCache where
  mHash : UnorderedMap
  mcacheSize : Nat

namespace ModelCache

/-- The state of the singleton before any call: an empty map and `mcacheSize{10}`. -/
def initial : ModelCache := ⟨UnorderedMap.empty, 10⟩

/-- An empty cache with a given bound. -/
def emptyWith (cacheSize : Nat) : ModelCache := ⟨UnorderedMap.empty, cacheSize⟩

/-- Member function `ModelCache::find`: the pointer returned, and the cache after the call. -/
def find (c : ModelCache) (key : String) : Option Composition × ModelCache :=
  if c.mcacheSize = 0 then (none, c)
  else
    match c.mHash.find key with
    | some second => (second, c)
    | none => (none, c)

/-- Member function `ModelCache::add`. -/
def add (L : Layout) (c : ModelCache) (key : String) (value : Option Composition) :
    ModelCache :=
  if c.mcacheSize = 0 then c
  else
    let erased := if c.mcacheSize = c.mHash.size then c.mHash.eraseBegin else c.mHash
    { c with mHash := erased.assign L key value }

/-- Member function `ModelCache::configureCacheSize`. -/
def configureCacheSize (c : ModelCache) (cacheSize : Nat) : ModelCache :=
  let c1 : ModelCache := { c with mcacheSize := cacheSize }
  if c1.mcacheSize = 0 then { c1 with mHash := c1.mHash.clear } else c1

end ModelCache

/-! ## The loader -/

/-- The terminating character of a C string. -/
def NUL : Char := Char.ofNat 0

/-- Member `c_str()` as a callee that takes a `const char *` sees it: the characters before
the first NUL. -/
def c_str (s : String) : String := String.mk (s.data.takeWhile (fun ch => ch ≠ NUL))

/-- The C library function `strrchr` on a C string without its terminator: the offset of
the last occurrence of `c`, if there is one. -/
def strrchr (c : Char) : List Char → Option Nat
  | [] => none
  | x :: xs =>
    match strrchr c xs with
    | some i => some (i + 1)
    | none => if x = c then some 0 else none

/-- Conversion of a pointer difference to `int`: the low 32 bits, read as signed. -/
def toInt32 (n : Int) : Int := (n + 2 ^ 31) % 2 ^ 32 - 2 ^ 31

/-- Function `dirname`, non-Windows build. `base` is the address `path.c_str()`; when no slash is
found `ptr` is the null pointer and the length comes out of the address arithmetic. The
constructor `std::string(path, 0, len)` converts `len` to `size_type` and copies at most
that many characters. -/
def dirname (base : Nat) (path : String) : String :=
  let ptr : Int :=
    match strrchr '/' (c_str path).data with
    | some i => (base : Int) + (i : Int)
    | none => 0
  let len : Int := toInt32 (ptr + 1 - (base : Int))
  let count : Nat := (len % 2 ^ 64).toNat
  String.mk (path.data.take count)

/-- A call made by a load to one of its collaborators. -/
inductive Event where
  | fileOpen (filename : String)
  | vCritical (message : String)
  | parse (str : String) (len : Nat) (dirPath : String)
  | parseFilter (str : String) (len : Nat) (dirPath : String) (filter : ColorFilter)
  | lengthError
deriving DecidableEq, Repr

/-- What an opened `std::ifstream` delivers: the position that `tellg()` reports after
`seekg(0, std::ios::end)` (`-1` when the stream cannot tell it) and the characters that
the `std::istreambuf_iterator` range yields after `seekg(0, std::ios::beg)`. -/
structure FileStream where
  tellg : Int
  content : String
deriving DecidableEq, Repr

/-- The stream of a regular file with the given content: the end position is the number
of characters. -/
def FileStream.regular (content : String) : FileStream := ⟨content.length, content⟩

/-- Conversion of a stream position to `size_t`, as done for the arguments of
`content.reserve` and of the parser. -/
def toSizeT (n : Int) : Nat := (n % 2 ^ 64).toNat

/-- What surrounds one call of the loader: the file system (`none` when the stream does
not open), what `internal::model::parse` returns for each argument list (both overloads;
it is declared in `lottiemodel.h`, its length parameter taken as a `size_t`), the address
of the path buffer, the layout used by the map if the call inserts, and the value of
`std::string::max_size()`. -/
structure Env where
  files : String → Option FileStream
  parse : String → Nat → String → Option Composition
  parseFilter : String → Nat → String → ColorFilter → Option Composition
  pathAddr : Nat
  layout : Layout
  max_size : Nat

/-- Result of a load: the pointer returned, the cache afterwards, the collaborator calls.
A trace that ends with `Event.lengthError` stands for a call that did not return:
`std::length_error` left it, and `obj` is `none`. -/
structure Loaded where
  obj : Option Composition
  cache : ModelCache
  trace : List Event

/-- Function `model::configureModelCacheSize`. -/
def configureModelCacheSize (cache : ModelCache) (cacheSize : Nat) : ModelCache :=
  cache.configureCacheSize cacheSize

/-- Function `model::loadFromFile`. The call `content.reserve(fsize)` throws
`std::length_error` when `fsize`, as a `size_t`, exceeds `max_size()`; memory is taken to
be sufficient otherwise. The emptiness test and the length handed to the parser use
`fsize`, the value of `tellg()`. -/
def loadFromFile (env : Env) (cache : ModelCache) (path : String) (cachePolicy : Bool) :
    Loaded :=
  let looked : Option Composition × ModelCache :=
    if cachePolicy then cache.find path else (none, cache)
  match looked.1 with
  | some obj => ⟨some obj, looked.2, []⟩
  | none =>
    let cache1 := looked.2
    match env.files (c_str path) with
    | none =>
      ⟨none, cache1,
        [Event.fileOpen (c_str path), Event.vCritical ("failed to open file = " ++ c_str path)]⟩
    | some f =>
      let fsize := f.tellg
      if env.max_size < toSizeT fsize then
        ⟨none, cache1, [Event.fileOpen (c_str path), Event.lengthError]⟩
      else
        let content := f.content
        if fsize = 0 then ⟨none, cache1, [Event.fileOpen (c_str path)]⟩
        else
          let dir := dirname env.pathAddr path
          let obj := env.parse content (toSizeT fsize) dir
          let cache2 :=
            if obj.isSome && cachePolicy then cache1.add env.layout path obj else cache1
          ⟨obj, cache2,
            [Event.fileOpen (c_str path), Event.parse content (toSizeT fsize) dir]⟩

/-- Function `model::loadFromData`, the overload with a key and a cache policy. -/
def loadFromData (env : Env) (cache : ModelCache) (jsonData key resourcePath : String)
    (cachePolicy : Bool) : Loaded :=
  let looked : Option Composition × ModelCache :=
    if cachePolicy then cache.find key else (none, cache)
  match looked.1 with
  | some obj => ⟨some obj, looked.2, []⟩
  | none =>
    let cache1 := looked.2
    let obj := env.parse jsonData jsonData.length resourcePath
    let cache2 :=
      if obj.isSome && cachePolicy then cache1.add env.layout key obj else cache1
    ⟨obj, cache2, [Event.parse jsonData jsonData.length resourcePath]⟩

/-- Function `model::loadFromData`, the overload with a color filter. -/
def loadFromDataFilter (env : Env) (cache : ModelCache) (jsonData resourcePath : String)
    (filter : ColorFilter) : Loaded :=
  ⟨env.parseFilter jsonData jsonData.length resourcePath filter, cache,
    [Event.parseFilter jsonData jsonData.length resourcePath filter]⟩

/-- One call of the public interface of the translation unit, with its surroundings. -/
inductive Call where
  | loadFromFile (env : Env) (path : String) (cachePolicy : Bool)
  | loadFromData (env : Env) (jsonData key resourcePath : String) (cachePolicy : Bool)
  | loadFromDataFilter (env : Env) (jsonData resourcePath : String) (filter : ColorFilter)
  | configureModelCacheSize (cacheSize : Nat)

/-- The cache after one call. -/
def Call.run (cache : ModelCache) : Call → ModelCache
  | .loadFromFile env path cachePolicy => (Rlottie.loadFromFile env cache path cachePolicy).cache
  | .loadFromData env jsonData key resourcePath cachePolicy =>
    (Rlottie.loadFromData env cache jsonData key resourcePath cachePolicy).cache
  | .loadFromDataFilter env jsonData resourcePath filter =>
    (Rlottie.loadFromDataFilter env cache jsonData resourcePath filter).cache
  | .configureModelCacheSize cacheSize => Rlottie.configureModelCacheSize cache cacheSize

/-- The cache after a sequence of calls, executed one after the other. -/
def runCalls (cache : ModelCache) (calls : List Call) : ModelCache :=
  calls.foldl Call.run cache

/-- An argument list of `ModelCache::add`, with the layout in force at that call. -/
structure AddCall where
  layout : Layout
  key : String
  value : Option Composition

/-- The cache after a sequence of `add` calls. -/
def runAdds (cache : ModelCache) (calls : List AddCall) : ModelCache :=
  calls.foldl (fun c a => c.add a.layout a.key a.value) cache

/-- A call of `ModelCache::add` or `ModelCache::find`. -/
inductive CacheOp where
  | add (layout : Layout) (key : String) (value : Option Composition)
  | find (key : String)

/-- One cache operation: the cache afterwards and, for a `find`, the pointer returned. -/
def CacheOp.step (c : ModelCache) : CacheOp → ModelCache × List (Option Composition)
  | .add layout key value => (c.add layout key value, [])
  | .find key => ((c.find key).2, [(c.find key).1])

/-- A sequence of cache operations: the final cache and everything the `find` calls
returned, in order. -/
def runOps (c : ModelCache) : List CacheOp → ModelCache × List (Option Composition)
  | [] => (c, [])
  | op :: rest =>
    let r := CacheOp.step c op
    let rs := runOps r.1 rest
    (rs.1, r.2 ++ rs.2)

/-- Key of the element `*cbegin()`, the first in iteration order, if the map has one. -/
def UnorderedMap.beginKey (m : UnorderedMap) : Option String :=
  m.entries.head?.map Prod.fst

/-- Whether a cache operation is a `find`. -/
def CacheOp.isFind : CacheOp → Bool
  | .add _ _ _ => false
  | .find _ => true

/-! ## Concrete states used to evaluate the code -/

/-- A cache of capacity 2 after `add("a", _)` and `add("b", _)`, new elements going to the
front of the iteration order: it holds `b` and then `a`. -/
def cacheBA : ModelCache :=
  runAdds (ModelCache.emptyWith 2)
    [⟨Layout.front, "a", some ⟨1⟩⟩, ⟨Layout.front, "b", some ⟨2⟩⟩]

/-- Surroundings in which no file opens and the parser returns the composition `n`. -/
def envParsing (n : Nat) : Env where
  files := fun _ => none
  parse := fun _ _ _ => some ⟨n⟩
  parseFilter := fun _ _ _ _ => none
  pathAddr := 4096
  layout := Layout.front
  max_size := 2 ^ 62 - 1

/-- The singleton after two cached loads under the default capacity and a call
`configureModelCacheSize(1)`. -/
def loweredCache : ModelCache :=
  runCalls ModelCache.initial
    [Call.loadFromData (envParsing 1) "{}" "a" "" true,
     Call.loadFromData (envParsing 2) "{}" "b" "" true,
     Call.configureModelCacheSize 1]

/-- Surroundings in which only the file called `name` opens, a regular file with content
`content`, and the parser returns the composition `n`. -/
def envFile (name content : String) (n : Nat) : Env where
  files := fun f => if f = name then some (FileStream.regular content) else none
  parse := fun _ _ _ => some ⟨n⟩
  parseFilter := fun _ _ _ _ => some ⟨n⟩
  pathAddr := 4096
  layout := Layout.front
  max_size := 2 ^ 62 - 1

/-- Two calls that leave a cached path in place: a cached load under another key and a
call that lowers the capacity to 1. -/
def callsBetween : List Call :=
  [Call.loadFromData (envParsing 2) "{}" "k" "" true, Call.configureModelCacheSize 1]

/-- A cache of capacity 2 in which the key `missing.json` is cached. -/
def cacheMissing : ModelCache :=
  (ModelCache.emptyWith 2).add Layout.front "missing.json" (some ⟨4⟩)

/-- A cache of capacity 1 that holds the key `a`. -/
def cacheOne : ModelCache := (ModelCache.emptyWith 1).add Layout.front "a" (some ⟨1⟩)

/-- Surroundings in which only the file called `name` opens, a regular file with content
`content`, and the parser rejects everything. -/
def envRejecting (name content : String) : Env where
  files := fun f => if f = name then some (FileStream.regular content) else none
  parse := fun _ _ _ => none
  parseFilter := fun _ _ _ _ => none
  pathAddr := 4096
  layout := Layout.front
  max_size := 2 ^ 62 - 1

/-- Modelled from the spec: the parser `internal::model::parse` is defined in
`lottieparser.cpp`; the specification gives its contract. Given well-formed textual
animation content it returns a fully constructed composition, given malformed content it
returns an absent result, it never raises, and zero-length data is an empty input, which
yields an absent result. Here `wellFormed` says which data of which length are well
formed and `build` which composition they yield. -/
def specParse (wellFormed : String → Nat → Bool) (build : String → String → Composition)
    (str : String) (len : Nat) (dirPath : String) : Option Composition :=
  if len = 0 then none
  else if wellFormed str len then some (build str dirPath) else none

/-- Modelled from the spec: the overload of `internal::model::parse` with a color filter,
defined in `lottieparser.cpp`, under the same contract as `specParse`; the filter goes
into the composition built. -/
def specParseFilter (wellFormed : String → Nat → Bool)
    (build : String → String → ColorFilter → Composition)
    (str : String) (len : Nat) (dirPath : String) (filter : ColorFilter) :
    Option Composition :=
  if len = 0 then none
  else if wellFormed str len then some (build str dirPath filter) else none

/-- Surroundings with a parser under the contract of the specification that accepts
exactly the data `{}` and returns the composition `n` for it; only the file called `name`
opens, as the stream `file`. -/
def envSpec (name : String) (file : FileStream) (n : Nat) : Env where
  files := fun f => if f = name then some file else none
  parse := specParse (fun str _ => str = "{}") (fun _ _ => ⟨n⟩)
  parseFilter := specParseFilter (fun str _ => str = "{}") (fun _ _ _ => ⟨n⟩)
  pathAddr := 4096
  layout := Layout.front
  max_size := 2 ^ 62 - 1

/-- Ten `add` calls with the distinct keys `k0` to `k9`, under alternating layouts. -/
def tenCalls : List AddCall :=
  [⟨Layout.front, "k0", some ⟨0⟩⟩, ⟨Layout.back, "k1", some ⟨1⟩⟩,
   ⟨Layout.front, "k2", some ⟨2⟩⟩, ⟨Layout.back, "k3", some ⟨3⟩⟩,
   ⟨Layout.front, "k4", some ⟨4⟩⟩, ⟨Layout.back, "k5", some ⟨5⟩⟩,
   ⟨Layout.front, "k6", some ⟨6⟩⟩, ⟨Layout.back, "k7", some ⟨7⟩⟩,
   ⟨Layout.front, "k8", some ⟨8⟩⟩, ⟨Layout.back, "k9", some ⟨9⟩⟩]

/-- A path of `2 ^ 31 + 1` characters whose only slash is at offset `2 ^ 31 - 1`. -/
def longPath : String := String.mk (List.replicate (2 ^ 31 - 1) 'a' ++ ['/', 'x'])

/-! ## Lemmas on the entries of the map -/

theorem lookup_eq_none_iff (key : String) (l : List Entry) :
    lookup key l = none ↔ key ∉ keysOf l := by
  induction l with
  | nil => simp [lookup, keysOf]
  | cons e t ih =>
    obtain ⟨k, v⟩ := e
    by_cases hk : k = key
    · simp [lookup, keysOf, hk]
    · have hk2 : ¬ key = k := fun h => hk h.symm
      simpa [lookup, keysOf, hk, hk2] using ih

theorem mem_of_lookup_eq_some {key : String} {v : Option Composition} {l : List Entry}
    (h : lookup key l = some v) : (key, v) ∈ l := by
  induction l with
  | nil => simp [lookup] at h
  | cons e t ih =>
    obtain ⟨k, w⟩ := e
    by_cases hk : k = key
    · simp [lookup, hk] at h
      simp [hk, h]
    · simp [lookup, hk] at h
      exact List.mem_cons_of_mem _ (ih h)

theorem lookup_of_mem {key : String} {v : Option Composition} {l : List Entry}
    (hnd : (keysOf l).Nodup) (h : (key, v) ∈ l) : lookup key l = some v := by
  induction l with
  | nil => simp at h
  | cons e t ih =>
    obtain ⟨k, w⟩ := e
    have hnd2 : k ∉ keysOf t ∧ (keysOf t).Nodup := by
      simpa [keysOf] using hnd
    by_cases hk : k = key
    · rcases List.mem_cons.mp h with h1 | h1
      · have h2 : w = v := by
          have := congrArg Prod.snd h1
          simpa using this.symm
        simp [lookup, hk, h2]
      · exfalso
        apply hnd2.1
        rw [hk]
        exact List.mem_map_of_mem Prod.fst h1
    · rcases List.mem_cons.mp h with h1 | h1
      · exfalso
        apply hk
        have := congrArg Prod.fst h1
        simpa using this.symm
      · simp [lookup, hk, ih hnd2.2 h1]

theorem lookup_perm {key : String} {l l2 : List Entry} (hnd : (keysOf l).Nodup)
    (hp : List.Perm l2 l) : lookup key l2 = lookup key l := by
  have hnd2 : (keysOf l2).Nodup := ((hp.map Prod.fst).nodup_iff).mpr hnd
  cases h : lookup key l with
  | none =>
    rw [lookup_eq_none_iff] at h ⊢
    intro hmem
    exact h ((hp.map Prod.fst).subset hmem)
  | some v =>
    exact lookup_of_mem hnd2 (hp.symm.subset (mem_of_lookup_eq_some h))

theorem lookup_setValue_self {key : String} (v : Option Composition) {l : List Entry}
    (h : key ∈ keysOf l) : lookup key (setValue key v l) = some v := by
  induction l with
  | nil => simp [keysOf] at h
  | cons e t ih =>
    obtain ⟨k, w⟩ := e
    by_cases hk : k = key
    · simp [setValue, lookup, hk]
    · have hk2 : ¬ key = k := fun h => hk h.symm
      have ht : key ∈ keysOf t := by
        simpa [keysOf, hk2] using h
      simp [setValue, lookup, hk, ih ht]

theorem lookup_setValue_other {key other : String} (v : Option Composition) (l : List Entry)
    (h : other ≠ key) : lookup other (setValue key v l) = lookup other l := by
  induction l with
  | nil => simp [setValue]
  | cons e t ih =>
    obtain ⟨k, w⟩ := e
    by_cases hk : k = key
    · have hk2 : ¬ key = other := fun h2 => h h2.symm
      simp [setValue, lookup, hk, hk2]
    · by_cases hk3 : k = other
      · subst hk3
        simp [setValue, lookup, hk]
      · simp [setValue, lookup, hk, hk3, ih]

theorem length_setValue (key : String) (v : Option Composition) (l : List Entry) :
    (setValue key v l).length = l.length := by
  induction l with
  | nil => rfl
  | cons e t ih =>
    obtain ⟨k, w⟩ := e
    by_cases hk : k = key <;> simp [setValue, hk, ih]

theorem lookup_tail {key : String} {l : List Entry} (hnd : (keysOf l).Nodup)
    (h : key ∈ keysOf l.tail) : lookup key l.tail = lookup key l := by
  cases l with
  | nil => rfl
  | cons e t =>
    obtain ⟨k, w⟩ := e
    have hnd2 : k ∉ keysOf t ∧ (keysOf t).Nodup := by
      simpa [keysOf] using hnd
    have hk : ¬ k = key := by
      intro hk
      apply hnd2.1
      rw [hk]
      simpa using h
    simp [lookup, hk]

namespace UnorderedMap

theorem contains_iff_find (m : UnorderedMap) (key : String) :
    m.contains key ↔ m.find key ≠ none := by
  unfold contains find
  rw [Ne, lookup_eq_none_iff]
  exact not_not.symm

theorem find_assign_self (L : Layout) (m : UnorderedMap) (key : String)
    (v : Option Composition) : (m.assign L key v).find key = some v := by
  unfold assign find
  split
  · next h => exact lookup_setValue_self v h
  · next h =>
    have hnd : (keysOf ((key, v) :: m.entries)).Nodup := by
      unfold keysOf at h ⊢
      exact List.nodup_cons.mpr ⟨h, m.nodup⟩
    show lookup key (L.arrange ((key, v) :: m.entries)) = some v
    rw [lookup_perm hnd (L.perm _)]
    simp [lookup]

theorem find_assign_other (L : Layout) (m : UnorderedMap) {key other : String}
    (v : Option Composition) (h : other ≠ key) :
    (m.assign L key v).find other = m.find other := by
  unfold assign find
  split
  · exact lookup_setValue_other v m.entries h
  · next hk =>
    have hnd : (keysOf ((key, v) :: m.entries)).Nodup := by
      unfold keysOf at hk ⊢
      exact List.nodup_cons.mpr ⟨hk, m.nodup⟩
    show lookup other (L.arrange ((key, v) :: m.entries)) = lookup other m.entries
    rw [lookup_perm hnd (L.perm _)]
    have hk2 : ¬ key = other := fun h2 => h h2.symm
    simp [lookup, hk2]

theorem size_assign_of_contains (L : Layout) (m : UnorderedMap) {key : String}
    (v : Option Composition) (h : m.contains key) : (m.assign L key v).size = m.size := by
  unfold contains at h
  unfold assign size
  rw [dif_pos h]
  exact length_setValue key v m.entries

theorem size_assign_of_not_contains (L : Layout) (m : UnorderedMap) {key : String}
    (v : Option Composition) (h : ¬ m.contains key) :
    (m.assign L key v).size = m.size + 1 := by
  unfold contains at h
  unfold assign size
  rw [dif_neg h]
  show (L.arrange ((key, v) :: m.entries)).length = m.entries.length + 1
  rw [(L.perm _).length_eq]
  rfl

theorem size_assign_le (L : Layout) (m : UnorderedMap) (key : String)
    (v : Option Composition) : (m.assign L key v).size ≤ m.size + 1 := by
  by_cases h : m.contains key
  · rw [size_assign_of_contains L m v h]
    exact Nat.le_succ _
  · rw [size_assign_of_not_contains L m v h]

theorem size_eraseBegin (m : UnorderedMap) : m.eraseBegin.size = m.size - 1 := by
  unfold eraseBegin size
  simp

theorem find_eraseBegin (m : UnorderedMap) {key : String} (h : m.eraseBegin.contains key) :
    m.eraseBegin.find key = m.find key :=
  lookup_tail m.nodup h

theorem contains_of_eraseBegin (m : UnorderedMap) {key : String}
    (h : m.eraseBegin.contains key) : m.contains key := by
  unfold contains eraseBegin at *
  exact ((List.tail_sublist m.entries).map Prod.fst).subset h

end UnorderedMap

theorem UnorderedMap.find_eraseBegin_of_ne_begin (m : UnorderedMap) {key : String}
    (h : m.beginKey ≠ some key) : m.eraseBegin.find key = m.find key := by
  unfold UnorderedMap.beginKey at h
  show lookup key m.entries.tail = lookup key m.entries
  cases hl : m.entries with
  | nil => rfl
  | cons e t =>
    obtain ⟨k, w⟩ := e
    have hk : ¬ k = key := by
      intro hk
      apply h
      simp [hl, hk]
    simp [lookup, hk]

theorem UnorderedMap.not_contains_eraseBegin_begin (m : UnorderedMap) {key : String}
    (h : m.beginKey = some key) : ¬ m.eraseBegin.contains key := by
  unfold UnorderedMap.beginKey at h
  show key ∉ keysOf m.entries.tail
  have hnd := m.nodup
  cases hl : m.entries with
  | nil => simp [keysOf]
  | cons e t =>
    obtain ⟨k, w⟩ := e
    rw [hl] at h hnd
    have hk : k = key := by simpa using h
    have hnd2 : k ∉ keysOf t ∧ (keysOf t).Nodup := by
      simpa [keysOf] using hnd
    rw [← hk]
    exact hnd2.1

theorem UnorderedMap.beginKey_contains (m : UnorderedMap) {key : String}
    (h : m.beginKey = some key) : m.contains key := by
  unfold UnorderedMap.beginKey at h
  unfold UnorderedMap.contains
  cases hl : m.entries with
  | nil => simp [hl] at h
  | cons e t =>
    rw [hl] at h
    have hk : e.1 = key := by simpa using h
    simp [keysOf, ← hk]

theorem UnorderedMap.beginKey_isSome (m : UnorderedMap) (h : 0 < m.size) :
    ∃ key, m.beginKey = some key := by
  unfold UnorderedMap.beginKey
  unfold UnorderedMap.size at h
  cases hl : m.entries with
  | nil => simp [hl] at h
  | cons e t => exact ⟨e.1, by simp⟩

namespace ModelCache

theorem add_of_zero (L : Layout) (c : ModelCache) (key : String) (v : Option Composition)
    (h : c.mcacheSize = 0) : c.add L key v = c := by
  simp [add, h]

theorem add_mcacheSize (L : Layout) (c : ModelCache) (key : String)
    (v : Option Composition) : (c.add L key v).mcacheSize = c.mcacheSize := by
  unfold add
  split <;> rfl

theorem add_mHash (L : Layout) (c : ModelCache) (key : String) (v : Option Composition)
    (h : c.mcacheSize ≠ 0) :
    (c.add L key v).mHash =
      (if c.mcacheSize = c.mHash.size then c.mHash.eraseBegin else c.mHash).assign L key v := by
  unfold add
  rw [if_neg h]

theorem find_add_self (L : Layout) (c : ModelCache) (key : String) (v : Option Composition)
    (h : c.mcacheSize ≠ 0) : (c.add L key v).mHash.find key = some v := by
  rw [add_mHash L c key v h]
  exact UnorderedMap.find_assign_self L _ key v

/-- An entry under another key that is still in the map after `add` has kept its value. -/
theorem find_add_other (L : Layout) (c : ModelCache) {key other : String}
    (v : Option Composition) (hne : other ≠ key)
    (hc : (c.add L key v).mHash.contains other) :
    (c.add L key v).mHash.find other = c.mHash.find other := by
  by_cases h : c.mcacheSize = 0
  · rw [add_of_zero L c key v h]
  · rw [add_mHash L c key v h] at hc ⊢
    rw [UnorderedMap.find_assign_other L _ v hne]
    rw [UnorderedMap.contains_iff_find, UnorderedMap.find_assign_other L _ v hne,
      ← UnorderedMap.contains_iff_find] at hc
    split
    · next hfull =>
      rw [if_pos hfull] at hc
      exact UnorderedMap.find_eraseBegin c.mHash hc
    · rfl

/-- A key other than the one added and other than the first key keeps its entry. -/
theorem find_add_of_ne_begin (L : Layout) (c : ModelCache) {key other : String}
    (v : Option Composition) (hne : other ≠ key) (hb : c.mHash.beginKey ≠ some other) :
    (c.add L key v).mHash.find other = c.mHash.find other := by
  by_cases h : c.mcacheSize = 0
  · rw [add_of_zero L c key v h]
  · rw [add_mHash L c key v h, UnorderedMap.find_assign_other L _ v hne]
    split
    · exact UnorderedMap.find_eraseBegin_of_ne_begin c.mHash hb
    · rfl

theorem size_add_le (L : Layout) (c : ModelCache) (key : String) (v : Option Composition)
    (h : c.mHash.size ≤ c.mcacheSize) : (c.add L key v).mHash.size ≤ c.mcacheSize := by
  by_cases h0 : c.mcacheSize = 0
  · rw [add_of_zero L c key v h0]
    exact h
  · rw [add_mHash L c key v h0]
    refine le_trans (UnorderedMap.size_assign_le L _ key v) ?_
    split
    · next hfull =>
      rw [UnorderedMap.size_eraseBegin, ← hfull]
      omega
    · next hfull => omega

theorem runAdds_bound (calls : List AddCall) (c : ModelCache)
    (h : c.mHash.size ≤ c.mcacheSize) :
    (runAdds c calls).mHash.size ≤ c.mcacheSize ∧
      (runAdds c calls).mcacheSize = c.mcacheSize := by
  induction calls generalizing c with
  | nil => exact ⟨h, rfl⟩
  | cons a rest ih =>
    have h1 : (c.add a.layout a.key a.value).mHash.size ≤
        (c.add a.layout a.key a.value).mcacheSize := by
      rw [add_mcacheSize]
      exact size_add_le a.layout c a.key a.value h
    have h2 := ih (c.add a.layout a.key a.value) h1
    rw [add_mcacheSize] at h2
    exact h2

end ModelCache

/-! ## The claims on `ModelCache` -/

/-- Claim C1, capacity invariant: starting from an empty cache of capacity `C`, after each
`add` of any sequence of `add` calls (any keys, any values, any layout of the map) the map
holds at most `C` entries, and the capacity is still `C`. The statement covers every `C`,
in particular every `C > 0`. -/
theorem add_sequence_size_le_capacity (C : Nat) (calls : List AddCall) (n : Nat) :
    (runAdds (ModelCache.emptyWith C) (calls.take n)).mHash.size ≤ C ∧
      (runAdds (ModelCache.emptyWith C) (calls.take n)).mcacheSize = C :=
  ModelCache.runAdds_bound (calls.take n) (ModelCache.emptyWith C) (Nat.zero_le C)

/-- Claim C2 as stated fails: in the cache of capacity 2 that holds `b` and `a` (full, with
`a` present), `add("a", v)` erases the first element `b`, a key other than `a`. -/
theorem add_present_key_evicts_other :
    0 < cacheBA.mcacheSize ∧ cacheBA.mHash.size = cacheBA.mcacheSize ∧
      cacheBA.mHash.contains "a" ∧ cacheBA.mHash.contains "b" ∧ "b" ≠ "a" ∧
      ¬ (cacheBA.add Layout.front "a" (some ⟨7⟩)).mHash.contains "b" ∧
      (cacheBA.add Layout.front "a" (some ⟨7⟩)).mHash.entries = [("a", some ⟨7⟩)] := by
  decide

/-- Claim C2, amended: when the map holds exactly `C > 0` entries and `k` is present,
`add(k, v)` erases the first element of the iteration order and then stores `v` under `k`.
Afterwards `k` maps to `v`; every key other than `k` and other than the first key has the
entry it had before; the first key, when it is not `k`, is no longer in the map, and the
map is then left with `C - 1` entries (with `C` entries when the first key is `k`). -/
theorem add_present_key_at_capacity (L : Layout) (c : ModelCache) (k : String)
    (v : Option Composition) (hcap : 0 < c.mcacheSize)
    (hfull : c.mHash.size = c.mcacheSize) (hk : c.mHash.contains k) :
    (c.add L k v).mHash.find k = some v ∧
      (∀ other, other ≠ k → c.mHash.beginKey ≠ some other →
        (c.add L k v).mHash.find other = c.mHash.find other) ∧
      (∀ first, c.mHash.beginKey = some first → first ≠ k →
        ¬ (c.add L k v).mHash.contains first) ∧
      (c.add L k v).mHash.size =
        (if c.mHash.beginKey = some k then c.mcacheSize else c.mcacheSize - 1) := by
  have h0 : c.mcacheSize ≠ 0 := Nat.pos_iff_ne_zero.mp hcap
  refine ⟨ModelCache.find_add_self L c k v h0, ?_, ?_, ?_⟩
  · intro other hne hb
    exact ModelCache.find_add_of_ne_begin L c v hne hb
  · intro first hb hne
    rw [ModelCache.add_mHash L c k v h0, if_pos hfull.symm,
      UnorderedMap.contains_iff_find, UnorderedMap.find_assign_other L _ v hne,
      ← UnorderedMap.contains_iff_find]
    exact UnorderedMap.not_contains_eraseBegin_begin c.mHash hb
  · rw [ModelCache.add_mHash L c k v h0, if_pos hfull.symm]
    split
    · next hb =>
      rw [UnorderedMap.size_assign_of_not_contains L _ v
        (UnorderedMap.not_contains_eraseBegin_begin c.mHash hb),
        UnorderedMap.size_eraseBegin]
      omega
    · next hb =>
      have hke : c.mHash.eraseBegin.contains k := by
        rw [UnorderedMap.contains_iff_find,
          UnorderedMap.find_eraseBegin_of_ne_begin c.mHash hb,
          ← UnorderedMap.contains_iff_find]
        exact hk
      rw [UnorderedMap.size_assign_of_contains L _ v hke, UnorderedMap.size_eraseBegin,
        hfull]

/-- The amended claim C2 at the cache that holds `b` and `a` with capacity 2, for
`add("a", v)`. -/
theorem add_present_key_at_capacity_witness :
    0 < cacheBA.mcacheSize ∧ cacheBA.mHash.size = cacheBA.mcacheSize ∧
      cacheBA.mHash.contains "a" ∧
      ((cacheBA.add Layout.front "a" (some ⟨7⟩)).mHash.find "a" = some (some ⟨7⟩) ∧
        (∀ other, other ≠ "a" → cacheBA.mHash.beginKey ≠ some other →
          (cacheBA.add Layout.front "a" (some ⟨7⟩)).mHash.find other =
            cacheBA.mHash.find other) ∧
        (∀ first, cacheBA.mHash.beginKey = some first → first ≠ "a" →
          ¬ (cacheBA.add Layout.front "a" (some ⟨7⟩)).mHash.contains first) ∧
        (cacheBA.add Layout.front "a" (some ⟨7⟩)).mHash.size =
          (if cacheBA.mHash.beginKey = some "a" then cacheBA.mcacheSize
            else cacheBA.mcacheSize - 1)) :=
  ⟨by decide, by decide, by decide,
    add_present_key_at_capacity Layout.front cacheBA "a" (some ⟨7⟩)
      (by decide) (by decide) (by decide)⟩

/-- Claim C3, eviction on overflow: when the map holds exactly `C > 0` entries and `k` is
not present, after `add(k, v)` the map holds exactly `C` entries, `k` maps to `v`, one
previously present key (the first of the iteration order) is absent, and every other
previously present key is present with the value it had. -/
theorem add_new_key_at_capacity (L : Layout) (c : ModelCache) (k : String)
    (v : Option Composition) (hcap : 0 < c.mcacheSize)
    (hfull : c.mHash.size = c.mcacheSize) (hk : ¬ c.mHash.contains k) :
    (c.add L k v).mHash.size = c.mcacheSize ∧
      (c.add L k v).mcacheSize = c.mcacheSize ∧
      (c.add L k v).mHash.find k = some v ∧
      ∃ victim, c.mHash.beginKey = some victim ∧ c.mHash.contains victim ∧
        ¬ (c.add L k v).mHash.contains victim ∧
        ∀ other, c.mHash.contains other → other ≠ victim →
          (c.add L k v).mHash.contains other ∧
            (c.add L k v).mHash.find other = c.mHash.find other := by
  have h0 : c.mcacheSize ≠ 0 := Nat.pos_iff_ne_zero.mp hcap
  have hke : ¬ c.mHash.eraseBegin.contains k :=
    fun h => hk (UnorderedMap.contains_of_eraseBegin c.mHash h)
  have hpos : 0 < c.mHash.size := by omega
  obtain ⟨victim, hv⟩ := UnorderedMap.beginKey_isSome c.mHash hpos
  have hvc : c.mHash.contains victim := UnorderedMap.beginKey_contains c.mHash hv
  refine ⟨?_, ModelCache.add_mcacheSize L c k v, ModelCache.find_add_self L c k v h0,
    victim, hv, hvc, ?_, ?_⟩
  · rw [ModelCache.add_mHash L c k v h0, if_pos hfull.symm,
      UnorderedMap.size_assign_of_not_contains L _ v hke, UnorderedMap.size_eraseBegin]
    omega
  · have hne : victim ≠ k := fun h => hk (h ▸ hvc)
    rw [ModelCache.add_mHash L c k v h0, if_pos hfull.symm,
      UnorderedMap.contains_iff_find, UnorderedMap.find_assign_other L _ v hne,
      ← UnorderedMap.contains_iff_find]
    exact UnorderedMap.not_contains_eraseBegin_begin c.mHash hv
  · intro other hoc hov
    have hne : other ≠ k := fun h => hk (h ▸ hoc)
    have hb : c.mHash.beginKey ≠ some other := by
      rw [hv]
      intro h
      exact hov (Option.some.inj h).symm
    have hf := ModelCache.find_add_of_ne_begin L c v hne hb
    refine ⟨?_, hf⟩
    rw [UnorderedMap.contains_iff_find, hf, ← UnorderedMap.contains_iff_find]
    exact hoc

/-- Claim C3 on the scenario of the specification: capacity 2, `a` and `b` added, then
`add("c", v)`. -/
theorem add_new_key_at_capacity_witness :
    0 < cacheBA.mcacheSize ∧ cacheBA.mHash.size = cacheBA.mcacheSize ∧
      ¬ cacheBA.mHash.contains "c" ∧
      ((cacheBA.add Layout.back "c" (some ⟨3⟩)).mHash.size = cacheBA.mcacheSize ∧
        (cacheBA.add Layout.back "c" (some ⟨3⟩)).mcacheSize = cacheBA.mcacheSize ∧
        (cacheBA.add Layout.back "c" (some ⟨3⟩)).mHash.find "c" = some (some ⟨3⟩) ∧
        ∃ victim, cacheBA.mHash.beginKey = some victim ∧ cacheBA.mHash.contains victim ∧
          ¬ (cacheBA.add Layout.back "c" (some ⟨3⟩)).mHash.contains victim ∧
          ∀ other, cacheBA.mHash.contains other → other ≠ victim →
            (cacheBA.add Layout.back "c" (some ⟨3⟩)).mHash.contains other ∧
              (cacheBA.add Layout.back "c" (some ⟨3⟩)).mHash.find other =
                cacheBA.mHash.find other) :=
  ⟨by decide, by decide, by decide,
    add_new_key_at_capacity Layout.back cacheBA "c" (some ⟨3⟩)
      (by decide) (by decide) (by decide)⟩

theorem runOps_of_zero (ops : List CacheOp) (c : ModelCache) (h : c.mcacheSize = 0) :
    runOps c ops = (c, List.replicate (ops.countP CacheOp.isFind) none) := by
  induction ops with
  | nil => rfl
  | cons op rest ih =>
    cases op with
    | add layout key value =>
      simp [runOps, CacheOp.step, ModelCache.add_of_zero layout c key value h, ih,
        CacheOp.isFind]
    | find key =>
      simp [runOps, CacheOp.step, ModelCache.find, h, ih, CacheOp.isFind,
        List.replicate_succ]

/-- Claim C4, zero-capacity invariant: right after `configureCacheSize(0)` the map is
empty; after any following sequence of `add` and `find` calls the cache is the same (so
the map is still empty), every `find` of the sequence returned the null pointer, and
`find(k)` returns the null pointer for every key `k`. -/
theorem zero_capacity_stays_empty (c : ModelCache) (ops : List CacheOp) :
    (c.configureCacheSize 0).mHash.entries = [] ∧
      (runOps (c.configureCacheSize 0) ops).1 = c.configureCacheSize 0 ∧
      (runOps (c.configureCacheSize 0) ops).1.mHash.entries = [] ∧
      (runOps (c.configureCacheSize 0) ops).2 =
        List.replicate (ops.countP CacheOp.isFind) none ∧
      ∀ k, ((runOps (c.configureCacheSize 0) ops).1.find k).1 = none := by
  have hz : (c.configureCacheSize 0).mcacheSize = 0 := rfl
  have he : (c.configureCacheSize 0).mHash.entries = [] := rfl
  rw [runOps_of_zero ops _ hz]
  refine ⟨he, rfl, he, rfl, ?_⟩
  intro k
  simp [ModelCache.find, hz]

theorem ModelCache.add_mHash_of_ne_size (L : Layout) (c : ModelCache) (key : String)
    (v : Option Composition) (h0 : c.mcacheSize ≠ 0) (hne : c.mcacheSize ≠ c.mHash.size) :
    (c.add L key v).mHash = c.mHash.assign L key v := by
  rw [ModelCache.add_mHash L c key v h0, if_neg hne]

/-- Claim C5 at a reachable state: after two cached loads under the default capacity and
`configureModelCacheSize(1)` the map holds 2 entries with capacity 1; `add("c", v)` for the
absent key `c` erases nothing, whatever the layout of the map: the map grows to 3 entries,
above the capacity, and `a` and `b` are both still cached. -/
theorem add_above_capacity_grows (L : Layout) :
    loweredCache.mcacheSize = 1 ∧ loweredCache.mHash.size = 2 ∧
      ¬ loweredCache.mHash.contains "c" ∧
      (loweredCache.add L "c" (some ⟨3⟩)).mcacheSize = 1 ∧
      (loweredCache.add L "c" (some ⟨3⟩)).mHash.size = 3 ∧
      (loweredCache.add L "c" (some ⟨3⟩)).mHash.find "a" = some (some ⟨1⟩) ∧
      (loweredCache.add L "c" (some ⟨3⟩)).mHash.find "b" = some (some ⟨2⟩) ∧
      (loweredCache.add L "c" (some ⟨3⟩)).mHash.find "c" = some (some ⟨3⟩) := by
  have hm := ModelCache.add_mHash_of_ne_size L loweredCache "c" (some ⟨3⟩)
    (by decide) (by decide)
  have hc : ¬ loweredCache.mHash.contains "c" := by decide
  refine ⟨by decide, by decide, hc, ?_, ?_, ?_, ?_, ?_⟩
  · rw [ModelCache.add_mcacheSize]
    decide
  · rw [hm, UnorderedMap.size_assign_of_not_contains L _ _ hc]
    decide
  · rw [hm, UnorderedMap.find_assign_other L _ _ (by decide)]
    decide
  · rw [hm, UnorderedMap.find_assign_other L _ _ (by decide)]
    decide
  · rw [hm, UnorderedMap.find_assign_self]

/-! ## Lemmas on the loader -/

namespace ModelCache

theorem find_snd (c : ModelCache) (key : String) : (c.find key).2 = c := by
  unfold find
  split
  · rfl
  · split <;> rfl

theorem find_fst_eq_some_iff (c : ModelCache) (key : String) (x : Composition) :
    (c.find key).1 = some x ↔ c.mcacheSize ≠ 0 ∧ c.mHash.find key = some (some x) := by
  unfold find
  by_cases h0 : c.mcacheSize = 0
  · simp [h0]
  · rw [if_neg h0]
    cases hf : c.mHash.find key with
    | none => simp [h0]
    | some second => simp [h0]

theorem find_fst_of_zero (c : ModelCache) (key : String) (h : c.mcacheSize = 0) :
    (c.find key).1 = none := by
  simp [find, h]

end ModelCache

theorem loadFromFile_hit (env : Env) (c : ModelCache) (path : String) (x : Composition)
    (h : (c.find path).1 = some x) :
    loadFromFile env c path true = ⟨some x, c, []⟩ := by
  simp [loadFromFile, h, ModelCache.find_snd]

/-- The cache after `loadFromFile`: unchanged, or the result of `add` with the path and
the composition returned, which happens only with the cache policy on, after a lookup
that returned the null pointer. -/
theorem loadFromFile_cache_cases (env : Env) (c : ModelCache) (path : String)
    (cachePolicy : Bool) :
    (loadFromFile env c path cachePolicy).cache = c ∨
      ∃ x, cachePolicy = true ∧ (c.find path).1 = none ∧
        (loadFromFile env c path cachePolicy).obj = some x ∧
        (loadFromFile env c path cachePolicy).cache = c.add env.layout path (some x) := by
  unfold loadFromFile
  cases cachePolicy with
  | false =>
    left
    simp only [Bool.false_eq_true, if_false, Bool.and_false]
    cases env.files (c_str path) with
    | none => rfl
    | some file =>
      simp only
      split
      · rfl
      · split <;> rfl
  | true =>
    simp only [if_true, Bool.and_true, ModelCache.find_snd]
    cases hf : (c.find path).1 with
    | some x => left; rfl
    | none =>
      simp only
      cases env.files (c_str path) with
      | none => left; rfl
      | some file =>
        simp only
        split
        · left; rfl
        · split
          · left; rfl
          · cases hp : env.parse file.content (toSizeT file.tellg)
                (dirname env.pathAddr path) with
            | none => left; simp
            | some x => right; refine ⟨x, ?_, ?_, ?_, ?_⟩ <;> simp

/-- The cache after the keyed `loadFromData`: unchanged, or the result of `add` with the
key and the composition returned. -/
theorem loadFromData_cache_cases (env : Env) (c : ModelCache)
    (jsonData key resourcePath : String) (cachePolicy : Bool) :
    (loadFromData env c jsonData key resourcePath cachePolicy).cache = c ∨
      ∃ x, cachePolicy = true ∧ (c.find key).1 = none ∧
        (loadFromData env c jsonData key resourcePath cachePolicy).obj = some x ∧
        (loadFromData env c jsonData key resourcePath cachePolicy).cache =
          c.add env.layout key (some x) := by
  unfold loadFromData
  cases cachePolicy with
  | false =>
    left
    simp
  | true =>
    simp only [if_true, Bool.and_true, ModelCache.find_snd]
    cases hf : (c.find key).1 with
    | some x => left; rfl
    | none =>
      simp only
      cases hp : env.parse jsonData jsonData.length resourcePath with
      | none => left; simp
      | some x => right; refine ⟨x, ?_, ?_, ?_, ?_⟩ <;> simp

/-- After `add` of a key whose lookup returned the null pointer, a cached composition
under `p` that is still in the map is still what `find(p)` returns. -/
theorem cached_add_of_miss (L : Layout) (c : ModelCache) (p q : String) (comp : Composition)
    (x : Option Composition)
    (hinv : c.mcacheSize ≠ 0 ∧ c.mHash.find p = some (some comp))
    (hq : (c.find q).1 = none) (hkept : (c.add L q x).mHash.contains p) :
    (c.add L q x).mcacheSize ≠ 0 ∧ (c.add L q x).mHash.find p = some (some comp) := by
  have hne : p ≠ q := by
    intro h
    have hp := (ModelCache.find_fst_eq_some_iff c p comp).mpr hinv
    rw [h, hq] at hp
    exact Option.noConfusion hp
  refine ⟨?_, ?_⟩
  · rw [ModelCache.add_mcacheSize]
    exact hinv.1
  · rw [ModelCache.find_add_other L c x hne hkept]
    exact hinv.2

theorem cached_step (call : Call) (c : ModelCache) (p : String) (comp : Composition)
    (hinv : c.mcacheSize ≠ 0 ∧ c.mHash.find p = some (some comp))
    (hkept : (call.run c).mHash.contains p) :
    (call.run c).mcacheSize ≠ 0 ∧ (call.run c).mHash.find p = some (some comp) := by
  cases call with
  | loadFromFile env path cachePolicy =>
    have hrun : Call.run c (Call.loadFromFile env path cachePolicy) =
        (loadFromFile env c path cachePolicy).cache := rfl
    rw [hrun] at hkept ⊢
    rcases loadFromFile_cache_cases env c path cachePolicy with h | ⟨x, _, hq, _, h⟩
    · rw [h]
      exact hinv
    · rw [h] at hkept ⊢
      exact cached_add_of_miss env.layout c p path comp (some x) hinv hq hkept
  | loadFromData env jsonData key resourcePath cachePolicy =>
    have hrun : Call.run c (Call.loadFromData env jsonData key resourcePath cachePolicy) =
        (loadFromData env c jsonData key resourcePath cachePolicy).cache := rfl
    rw [hrun] at hkept ⊢
    rcases loadFromData_cache_cases env c jsonData key resourcePath cachePolicy with
      h | ⟨x, _, hq, _, h⟩
    · rw [h]
      exact hinv
    · rw [h] at hkept ⊢
      exact cached_add_of_miss env.layout c p key comp (some x) hinv hq hkept
  | loadFromDataFilter env jsonData resourcePath filter => exact hinv
  | configureModelCacheSize cacheSize =>
    by_cases hz : cacheSize = 0
    · exfalso
      subst hz
      have : ¬ (Call.run c (Call.configureModelCacheSize 0)).mHash.contains p := by
        simp [Call.run, configureModelCacheSize, ModelCache.configureCacheSize,
          UnorderedMap.clear, UnorderedMap.empty, UnorderedMap.contains, keysOf]
      exact this hkept
    · have hrun : Call.run c (Call.configureModelCacheSize cacheSize) =
          { c with mcacheSize := cacheSize } := by
        simp [Call.run, configureModelCacheSize, ModelCache.configureCacheSize, hz]
      rw [hrun]
      exact ⟨hz, hinv.2⟩

theorem cached_runCalls (calls : List Call) (c : ModelCache) (p : String)
    (comp : Composition) (hinv : c.mcacheSize ≠ 0 ∧ c.mHash.find p = some (some comp))
    (hkept : ∀ n, (runCalls c (calls.take n)).mHash.contains p) :
    (runCalls c calls).mcacheSize ≠ 0 ∧
      (runCalls c calls).mHash.find p = some (some comp) := by
  induction calls generalizing c with
  | nil => exact hinv
  | cons call rest ih =>
    have h1 : (call.run c).mHash.contains p := by
      have := hkept 1
      simpa [runCalls] using this
    have hinv1 := cached_step call c p comp hinv h1
    have hrest : ∀ n, (runCalls (call.run c) (rest.take n)).mHash.contains p := by
      intro n
      have := hkept (n + 1)
      simpa [runCalls] using this
    have := ih (call.run c) hinv1 hrest
    simpa [runCalls] using this

theorem cached_after_loadFromFile (env : Env) (c : ModelCache) (p : String)
    (comp : Composition) (hcap : 0 < c.mcacheSize)
    (hfirst : (loadFromFile env c p true).obj = some comp) :
    (loadFromFile env c p true).cache.mcacheSize ≠ 0 ∧
      (loadFromFile env c p true).cache.mHash.find p = some (some comp) := by
  have h0 : c.mcacheSize ≠ 0 := Nat.pos_iff_ne_zero.mp hcap
  cases hf : (c.find p).1 with
  | some x =>
    rw [loadFromFile_hit env c p x hf] at hfirst ⊢
    have hx : x = comp := Option.some.inj hfirst
    rw [← hx]
    exact (ModelCache.find_fst_eq_some_iff c p x).mp hf
  | none =>
    rcases loadFromFile_cache_cases env c p true with h | ⟨x, _, _, hobj, h⟩
    · exfalso
      revert hfirst h
      unfold loadFromFile
      simp only [if_true, Bool.and_true, ModelCache.find_snd, hf]
      cases env.files (c_str p) with
      | none => simp
      | some file =>
        simp only
        split
        · simp
        · split
          · simp
          · intro hobj hcache
            simp only at hobj hcache
            rw [hobj] at hcache
            simp only [Option.isSome_some, if_true] at hcache
            have hfind := ModelCache.find_add_self env.layout c p (some comp) h0
            rw [hcache] at hfind
            have hnone : (c.find p).1 ≠ none := by
              rw [Ne, ← Option.not_isSome_iff_eq_none, not_not]
              exact Option.isSome_iff_exists.mpr
                ⟨comp, (ModelCache.find_fst_eq_some_iff c p comp).mpr ⟨h0, hfind⟩⟩
            exact hnone hf
    · rw [hfirst] at hobj
      have hx : comp = x := Option.some.inj hobj
      rw [h, ← hx]
      exact ⟨by rw [ModelCache.add_mcacheSize]; exact h0,
        ModelCache.find_add_self env.layout c p (some comp) h0⟩

/-! ## The claims on the loader -/

/-- Claim C6, cache-hit short-circuit: let `loadFromFile(p, true)` on a cache of nonzero
capacity return the composition `comp`, and let any calls of the interface follow after
each of which `p` is still a key of the map (none, in particular). Then a second
`loadFromFile(p, true)` returns `comp`, makes no collaborator call (no file is opened, the
parser is not invoked) and leaves the cache as it is, whatever the file system and the
parser look like at that time. -/
theorem loadFromFile_hit_short_circuit (env1 env2 : Env) (c : ModelCache) (p : String)
    (comp : Composition) (between : List Call) (hcap : 0 < c.mcacheSize)
    (hfirst : (loadFromFile env1 c p true).obj = some comp)
    (hkept : ∀ n,
      (runCalls (loadFromFile env1 c p true).cache (between.take n)).mHash.contains p) :
    (loadFromFile env2 (runCalls (loadFromFile env1 c p true).cache between) p true).obj =
        some comp ∧
      (loadFromFile env2 (runCalls (loadFromFile env1 c p true).cache between) p true).trace =
        [] ∧
      (loadFromFile env2 (runCalls (loadFromFile env1 c p true).cache between) p true).cache =
        runCalls (loadFromFile env1 c p true).cache between := by
  have hinv := cached_after_loadFromFile env1 c p comp hcap hfirst
  have hend := cached_runCalls between _ p comp hinv hkept
  have hfind := (ModelCache.find_fst_eq_some_iff _ p comp).mpr hend
  rw [loadFromFile_hit env2 _ p comp hfind]
  exact ⟨rfl, rfl, rfl⟩

/-- Claim C6 on a concrete run: `anim/a.json` is loaded into the initial cache, a load
under another key and `configureModelCacheSize(1)` follow, and the second load happens
when no file opens any more. -/
theorem loadFromFile_hit_short_circuit_witness :
    0 < ModelCache.initial.mcacheSize ∧
      (loadFromFile (envFile "anim/a.json" "{}" 1) ModelCache.initial "anim/a.json" true).obj =
        some ⟨1⟩ ∧
      (∀ n, (runCalls
        (loadFromFile (envFile "anim/a.json" "{}" 1) ModelCache.initial "anim/a.json" true).cache
        (callsBetween.take n)).mHash.contains "anim/a.json") ∧
      ((loadFromFile (envParsing 9) (runCalls
        (loadFromFile (envFile "anim/a.json" "{}" 1) ModelCache.initial "anim/a.json" true).cache
        callsBetween) "anim/a.json" true).obj = some ⟨1⟩ ∧
       (loadFromFile (envParsing 9) (runCalls
        (loadFromFile (envFile "anim/a.json" "{}" 1) ModelCache.initial "anim/a.json" true).cache
        callsBetween) "anim/a.json" true).trace = [] ∧
       (loadFromFile (envParsing 9) (runCalls
        (loadFromFile (envFile "anim/a.json" "{}" 1) ModelCache.initial "anim/a.json" true).cache
        callsBetween) "anim/a.json" true).cache = runCalls
        (loadFromFile (envFile "anim/a.json" "{}" 1) ModelCache.initial "anim/a.json" true).cache
        callsBetween) :=
  have hkept : ∀ n, (runCalls
      (loadFromFile (envFile "anim/a.json" "{}" 1) ModelCache.initial "anim/a.json" true).cache
      (callsBetween.take n)).mHash.contains "anim/a.json" := by
    intro n
    rcases n with _ | _ | n
    · decide
    · decide
    · have ht : callsBetween.take (n + 1 + 1) = callsBetween := by
        simp [callsBetween]
      rw [ht]
      decide
  ⟨by decide, by decide, hkept,
    loadFromFile_hit_short_circuit (envFile "anim/a.json" "{}" 1) (envParsing 9)
      ModelCache.initial "anim/a.json" ⟨1⟩ callsBetween (by decide) (by decide) hkept⟩

/-- Claim C7, no-cache isolation: the color-filter overload of `loadFromData` returns what
the color-filter overload of the parser returns on `(jsonData, jsonData.size(),
resourcePath, filter)`, whatever the cache holds, and leaves the cache as it is; after any
number of such calls, with any arguments, the cache is still the same. -/
theorem loadFromDataFilter_bypasses_cache (env : Env) (c : ModelCache)
    (jsonData resourcePath : String) (filter : ColorFilter)
    (calls : List (Env × String × String × ColorFilter)) :
    (loadFromDataFilter env c jsonData resourcePath filter).obj =
        env.parseFilter jsonData jsonData.length resourcePath filter ∧
      (loadFromDataFilter env c jsonData resourcePath filter).cache = c ∧
      (loadFromDataFilter env c jsonData resourcePath filter).trace =
        [Event.parseFilter jsonData jsonData.length resourcePath filter] ∧
      runCalls c (calls.map fun a => Call.loadFromDataFilter a.1 a.2.1 a.2.2.1 a.2.2.2) = c := by
  refine ⟨rfl, rfl, rfl, ?_⟩
  induction calls with
  | nil => rfl
  | cons a rest ih =>
    simpa [runCalls, Call.run, loadFromDataFilter] using ih

/-- Claim C8, missing file: when the stream for `p` does not open, `loadFromFile(p, true)`
on a cache whose lookup of `p` returns the null pointer returns the null pointer, leaves
the cache as it is and calls no parser (the only collaborator calls are the attempt to
open and the log message); `loadFromFile(p, false)` does the same on every cache. -/
theorem loadFromFile_missing_file (env : Env) (c c2 : ModelCache) (p : String)
    (hopen : env.files (c_str p) = none) (hmiss : (c.find p).1 = none) :
    ((loadFromFile env c p true).obj = none ∧ (loadFromFile env c p true).cache = c ∧
        (loadFromFile env c p true).trace =
          [Event.fileOpen (c_str p), Event.vCritical ("failed to open file = " ++ c_str p)]) ∧
      ((loadFromFile env c2 p false).obj = none ∧ (loadFromFile env c2 p false).cache = c2 ∧
        (loadFromFile env c2 p false).trace =
          [Event.fileOpen (c_str p), Event.vCritical ("failed to open file = " ++ c_str p)]) := by
  refine ⟨?_, ?_⟩
  · simp [loadFromFile, hmiss, hopen, ModelCache.find_snd]
  · simp [loadFromFile, hopen]

/-- Claim C8 on the scenario of the specification: `missing.json` does not open; with the
cache policy off the path is even cached. -/
theorem loadFromFile_missing_file_witness :
    (envParsing 5).files (c_str "missing.json") = none ∧
      (cacheBA.find "missing.json").1 = none ∧
      (((loadFromFile (envParsing 5) cacheBA "missing.json" true).obj = none ∧
          (loadFromFile (envParsing 5) cacheBA "missing.json" true).cache = cacheBA ∧
          (loadFromFile (envParsing 5) cacheBA "missing.json" true).trace =
            [Event.fileOpen (c_str "missing.json"),
              Event.vCritical ("failed to open file = " ++ c_str "missing.json")]) ∧
        ((loadFromFile (envParsing 5) cacheMissing "missing.json" false).obj = none ∧
          (loadFromFile (envParsing 5) cacheMissing "missing.json" false).cache =
            cacheMissing ∧
          (loadFromFile (envParsing 5) cacheMissing "missing.json" false).trace =
            [Event.fileOpen (c_str "missing.json"),
              Event.vCritical ("failed to open file = " ++ c_str "missing.json")])) :=
  ⟨by decide, by decide,
    loadFromFile_missing_file (envParsing 5) cacheBA cacheMissing "missing.json"
      (by decide) (by decide)⟩

/-- Claim C9, empty file: when the stream for `p` opens on a file of zero bytes (the end
position `tellg()` is 0), `loadFromFile(p, true)` on a cache whose lookup of `p` returns
the null pointer returns the null pointer, whatever the parser would return; the only
collaborator call is the opening of the file, and the cache is left as it is. -/
theorem loadFromFile_empty_file (env : Env) (c : ModelCache) (p : String) (file : FileStream)
    (hopen : env.files (c_str p) = some file) (hempty : file.tellg = 0)
    (hmiss : (c.find p).1 = none) :
    (loadFromFile env c p true).obj = none ∧ (loadFromFile env c p true).cache = c ∧
      (loadFromFile env c p true).trace = [Event.fileOpen (c_str p)] := by
  simp [loadFromFile, hmiss, hopen, hempty, ModelCache.find_snd, toSizeT]

/-- Claim C9 on the scenario of the specification: `empty.json` is a regular file with
zero bytes and the parser would return a composition on any content. -/
theorem loadFromFile_empty_file_witness :
    (envFile "empty.json" "" 5).files (c_str "empty.json") = some (FileStream.regular "") ∧
      (FileStream.regular "").tellg = 0 ∧ (FileStream.regular "").content.length = 0 ∧
      (cacheBA.find "empty.json").1 = none ∧
      (envFile "empty.json" "" 5).parse "" 0 "" = some ⟨5⟩ ∧
      ((loadFromFile (envFile "empty.json" "" 5) cacheBA "empty.json" true).obj = none ∧
        (loadFromFile (envFile "empty.json" "" 5) cacheBA "empty.json" true).cache = cacheBA ∧
        (loadFromFile (envFile "empty.json" "" 5) cacheBA "empty.json" true).trace =
          [Event.fileOpen (c_str "empty.json")]) :=
  ⟨by decide, by decide, by decide, by decide, by decide,
    loadFromFile_empty_file (envFile "empty.json" "" 5) cacheBA "empty.json"
      (FileStream.regular "") (by decide) (by decide) (by decide)⟩

/-- Claim C10, `add` stores and `find` retrieves: with a nonzero capacity, `find(k)` after
`add(k, v)` returns `v`, whatever the map held and whatever the layout; `find` leaves the
cache as it is; with capacity 0, `add(k, v)` leaves the cache as it is and `find(k)`
returns the null pointer. -/
theorem add_then_find (L : Layout) (c : ModelCache) (k : String) (v : Option Composition) :
    (0 < c.mcacheSize → ((c.add L k v).find k).1 = v) ∧
      (c.find k).2 = c ∧
      (c.mcacheSize = 0 → c.add L k v = c ∧ (c.find k).1 = none) := by
  refine ⟨?_, ModelCache.find_snd c k, ?_⟩
  · intro hcap
    have h0 : c.mcacheSize ≠ 0 := Nat.pos_iff_ne_zero.mp hcap
    have hf := ModelCache.find_add_self L c k v h0
    have hs : (c.add L k v).mcacheSize ≠ 0 := by
      rw [ModelCache.add_mcacheSize]
      exact h0
    unfold ModelCache.find
    rw [if_neg hs, hf]
  · intro hz
    exact ⟨ModelCache.add_of_zero L c k v hz, ModelCache.find_fst_of_zero c k hz⟩

/-- Claim C10 on a cache of capacity 1 that is full (the `add` evicts) and on an empty
cache of capacity 0. -/
theorem add_then_find_witness :
    0 < cacheOne.mcacheSize ∧ cacheOne.mHash.size = cacheOne.mcacheSize ∧
      ((cacheOne.add Layout.front "b" (some ⟨2⟩)).find "b").1 = some ⟨2⟩ ∧
      (ModelCache.emptyWith 0).mcacheSize = 0 ∧
      ((ModelCache.emptyWith 0).add Layout.front "b" (some ⟨2⟩) = ModelCache.emptyWith 0 ∧
        ((ModelCache.emptyWith 0).find "b").1 = none) :=
  ⟨by decide, by decide,
    (add_then_find Layout.front cacheOne "b" (some ⟨2⟩)).1 (by decide), rfl,
    (add_then_find Layout.front (ModelCache.emptyWith 0) "b" (some ⟨2⟩)).2.2 rfl⟩

/-- Claim C11, configure does not trim: for `c > 0`, `configureCacheSize(c)` sets the
capacity to `c` and leaves the map exactly as it was, also when `c` is below the number of
entries; `configureCacheSize(0)` sets the capacity to 0 and empties the map; and
`model::configureModelCacheSize` is that member function on the singleton. -/
theorem configure_does_not_trim (c : ModelCache) (cacheSize : Nat) :
    (0 < cacheSize →
        (c.configureCacheSize cacheSize).mcacheSize = cacheSize ∧
          (c.configureCacheSize cacheSize).mHash = c.mHash) ∧
      ((c.configureCacheSize 0).mcacheSize = 0 ∧
        (c.configureCacheSize 0).mHash.entries = []) ∧
      configureModelCacheSize c cacheSize = c.configureCacheSize cacheSize := by
  refine ⟨?_, ⟨rfl, rfl⟩, rfl⟩
  intro hpos
  have h0 : cacheSize ≠ 0 := Nat.pos_iff_ne_zero.mp hpos
  simp [ModelCache.configureCacheSize, h0]

/-- Claim C11 on the cache that holds `b` and `a`: lowering the capacity to 1 keeps both
entries. -/
theorem configure_does_not_trim_witness :
    0 < 1 ∧ cacheBA.mHash.size = 2 ∧
      ((cacheBA.configureCacheSize 1).mcacheSize = 1 ∧
        (cacheBA.configureCacheSize 1).mHash = cacheBA.mHash) :=
  ⟨by decide, by decide, (configure_does_not_trim cacheBA 1).1 (by decide)⟩

/-- A load that returns the null pointer leaves the cache as it is (`loadFromFile`). -/
theorem loadFromFile_cache_of_none (env : Env) (c : ModelCache) (path : String)
    (cachePolicy : Bool) (h : (loadFromFile env c path cachePolicy).obj = none) :
    (loadFromFile env c path cachePolicy).cache = c := by
  rcases loadFromFile_cache_cases env c path cachePolicy with hc | ⟨x, _, _, hobj, _⟩
  · exact hc
  · rw [h] at hobj
    exact Option.noConfusion hobj

/-- A load that returns the null pointer leaves the cache as it is (keyed
`loadFromData`). -/
theorem loadFromData_cache_of_none (env : Env) (c : ModelCache)
    (jsonData key resourcePath : String) (cachePolicy : Bool)
    (h : (loadFromData env c jsonData key resourcePath cachePolicy).obj = none) :
    (loadFromData env c jsonData key resourcePath cachePolicy).cache = c := by
  rcases loadFromData_cache_cases env c jsonData key resourcePath cachePolicy with
    hc | ⟨x, _, _, hobj, _⟩
  · exact hc
  · rw [h] at hobj
    exact Option.noConfusion hobj

/-- The lookup of `loadFromFile` when it is skipped or returns the null pointer. -/
theorem lookup_not_served (c : ModelCache) (path : String) (cachePolicy : Bool)
    (hserved : cachePolicy = false ∨ (c.find path).1 = none) :
    (if cachePolicy = true then c.find path else (none, c)) = (none, c) := by
  cases cachePolicy with
  | false => rfl
  | true =>
    rcases hserved with h | h
    · exact Bool.noConfusion h
    · simp only [if_true]
      exact Prod.ext h (ModelCache.find_snd c path)

/-- The result of `loadFromFile` when the lookup is skipped or returns the null pointer,
the file opens, `reserve` accepts its end position and that position is not 0. -/
theorem loadFromFile_miss (env : Env) (c : ModelCache) (path : String) (file : FileStream)
    (cachePolicy : Bool) (hserved : cachePolicy = false ∨ (c.find path).1 = none)
    (hopen : env.files (c_str path) = some file)
    (hfit : toSizeT file.tellg ≤ env.max_size) (hsize : file.tellg ≠ 0) :
    loadFromFile env c path cachePolicy =
      ⟨env.parse file.content (toSizeT file.tellg) (dirname env.pathAddr path),
        if (env.parse file.content (toSizeT file.tellg) (dirname env.pathAddr path)).isSome ∧
            cachePolicy = true then
          c.add env.layout path
            (env.parse file.content (toSizeT file.tellg) (dirname env.pathAddr path))
        else c,
        [Event.fileOpen (c_str path),
          Event.parse file.content (toSizeT file.tellg) (dirname env.pathAddr path)]⟩ := by
  have hlook := lookup_not_served c path cachePolicy hserved
  have hfit2 : ¬ env.max_size < toSizeT file.tellg := Nat.not_lt.mpr hfit
  unfold loadFromFile
  simp only [hlook, hopen, hfit2, hsize, if_false, Bool.and_eq_true]

/-- The result of `loadFromFile` when the lookup is skipped or returns the null pointer,
the file opens and `reserve` rejects its end position: `std::length_error` leaves the
call and the cache is as before. -/
theorem loadFromFile_length_error (env : Env) (c : ModelCache) (path : String)
    (file : FileStream) (cachePolicy : Bool)
    (hserved : cachePolicy = false ∨ (c.find path).1 = none)
    (hopen : env.files (c_str path) = some file)
    (hbig : env.max_size < toSizeT file.tellg) :
    loadFromFile env c path cachePolicy =
      ⟨none, c, [Event.fileOpen (c_str path), Event.lengthError]⟩ := by
  have hlook := lookup_not_served c path cachePolicy hserved
  unfold loadFromFile
  simp only [hlook, hopen, hbig, if_true]

/-- The result of `loadFromFile` when the lookup is skipped or returns the null pointer
and the file does not open or opens with the end position 0: the null pointer, with the
cache as before and without a call of the parser. -/
theorem loadFromFile_no_content (env : Env) (c : ModelCache) (path : String)
    (cachePolicy : Bool) (hserved : cachePolicy = false ∨ (c.find path).1 = none) :
    (env.files (c_str path) = none →
        loadFromFile env c path cachePolicy =
          ⟨none, c, [Event.fileOpen (c_str path),
            Event.vCritical ("failed to open file = " ++ c_str path)]⟩) ∧
      (∀ file, env.files (c_str path) = some file → file.tellg = 0 →
        loadFromFile env c path cachePolicy = ⟨none, c, [Event.fileOpen (c_str path)]⟩) := by
  have hlook := lookup_not_served c path cachePolicy hserved
  refine ⟨?_, ?_⟩
  · intro hopen
    unfold loadFromFile
    simp only [hlook, hopen]
  · intro file hopen hzero
    unfold loadFromFile
    simp [hlook, hopen, hzero, toSizeT]

/-- The result of the keyed `loadFromData` when the lookup is skipped or returns the null
pointer. -/
theorem loadFromData_miss (env : Env) (c : ModelCache) (jsonData key resourcePath : String)
    (cachePolicy : Bool) (hserved : cachePolicy = false ∨ (c.find key).1 = none) :
    loadFromData env c jsonData key resourcePath cachePolicy =
      ⟨env.parse jsonData jsonData.length resourcePath,
        if (env.parse jsonData jsonData.length resourcePath).isSome ∧ cachePolicy = true then
          c.add env.layout key (env.parse jsonData jsonData.length resourcePath)
        else c,
        [Event.parse jsonData jsonData.length resourcePath]⟩ := by
  have hlook : (if cachePolicy = true then c.find key else (none, c)) = (none, c) := by
    cases cachePolicy with
    | false => rfl
    | true =>
      rcases hserved with h | h
      · exact Bool.noConfusion h
      · simp only [if_true]
        exact Prod.ext h (ModelCache.find_snd c key)
  unfold loadFromData
  simp only [hlook, Bool.and_eq_true]

/-- Claim C13, parser failure: when the key is not served from the cache and the parser
returns the null pointer, `loadFromFile` (on a file that opens with an end position other
than 0) and the keyed `loadFromData` return the null pointer and leave the cache as it
is; and every load that returns the null pointer leaves the cache as it is (the
color-filter overload leaves it as it is in any case). -/
theorem parser_failure_leaves_cache (env : Env) (c : ModelCache)
    (path jsonData key resourcePath : String) (file : FileStream) (filter : ColorFilter)
    (cachePolicy : Bool) :
    ((cachePolicy = false ∨ (c.find path).1 = none) →
        env.files (c_str path) = some file → file.tellg ≠ 0 →
        env.parse file.content (toSizeT file.tellg) (dirname env.pathAddr path) = none →
        (loadFromFile env c path cachePolicy).obj = none ∧
          (loadFromFile env c path cachePolicy).cache = c) ∧
      ((cachePolicy = false ∨ (c.find key).1 = none) →
        env.parse jsonData jsonData.length resourcePath = none →
        (loadFromData env c jsonData key resourcePath cachePolicy).obj = none ∧
          (loadFromData env c jsonData key resourcePath cachePolicy).cache = c) ∧
      ((loadFromFile env c path cachePolicy).obj = none →
        (loadFromFile env c path cachePolicy).cache = c) ∧
      ((loadFromData env c jsonData key resourcePath cachePolicy).obj = none →
        (loadFromData env c jsonData key resourcePath cachePolicy).cache = c) ∧
      (loadFromDataFilter env c jsonData resourcePath filter).cache = c := by
  refine ⟨?_, ?_, loadFromFile_cache_of_none env c path cachePolicy,
    loadFromData_cache_of_none env c jsonData key resourcePath cachePolicy, rfl⟩
  · intro hserved hopen hsize hparse
    by_cases hbig : env.max_size < toSizeT file.tellg
    · rw [loadFromFile_length_error env c path file cachePolicy hserved hopen hbig]
      exact ⟨rfl, rfl⟩
    · rw [loadFromFile_miss env c path file cachePolicy hserved hopen (Nat.not_lt.mp hbig)
        hsize, hparse]
      simp
  · intro hserved hparse
    rw [loadFromData_miss env c jsonData key resourcePath cachePolicy hserved, hparse]
    simp

/-- Claim C13 on a parser that rejects everything, with the cache policy on and the cache
holding `b` and `a`: a file load and a keyed data load. -/
theorem parser_failure_leaves_cache_witness :
    ((true = false ∨ (cacheBA.find "anim/a.json").1 = none) ∧
      (envRejecting "anim/a.json" "{}").files (c_str "anim/a.json") =
        some (FileStream.regular "{}") ∧
      (FileStream.regular "{}").tellg ≠ 0 ∧
      (envRejecting "anim/a.json" "{}").parse (FileStream.regular "{}").content
        (toSizeT (FileStream.regular "{}").tellg)
        (dirname (envRejecting "anim/a.json" "{}").pathAddr "anim/a.json") = none) ∧
      ((loadFromFile (envRejecting "anim/a.json" "{}") cacheBA "anim/a.json" true).obj = none ∧
        (loadFromFile (envRejecting "anim/a.json" "{}") cacheBA "anim/a.json" true).cache =
          cacheBA) ∧
      ((loadFromData (envRejecting "anim/a.json" "{}") cacheBA "[" "k" "res/" true).obj =
          none ∧
        (loadFromData (envRejecting "anim/a.json" "{}") cacheBA "[" "k" "res/" true).cache =
          cacheBA) :=
  ⟨⟨Or.inr (by decide), by decide, by decide, rfl⟩,
    (parser_failure_leaves_cache (envRejecting "anim/a.json" "{}") cacheBA "anim/a.json"
      "[" "k" "res/" (FileStream.regular "{}") ⟨0⟩ true).1 (Or.inr (by decide)) (by decide)
      (by decide) rfl,
    (parser_failure_leaves_cache (envRejecting "anim/a.json" "{}") cacheBA "anim/a.json"
      "[" "k" "res/" (FileStream.regular "{}") ⟨0⟩ true).2.1 (Or.inr (by decide)) rfl⟩

/-- Claim C16, cache policy off: `loadFromFile(p, false)` returns what opening, reading
and parsing give (the null pointer when the file does not open or its end position is 0,
no pointer when `reserve` throws, else the result of the parser),
`loadFromData(jsonData, k, resourcePath, false)` returns what the parser returns; neither
result depends on the cache, the collaborators are really called, and the cache is left as
it is, also when the parser succeeds. -/
theorem cache_policy_off_bypasses_cache (env : Env) (c : ModelCache)
    (path jsonData key resourcePath : String) :
    (loadFromFile env c path false).obj =
        (match env.files (c_str path) with
          | none => none
          | some file =>
            if env.max_size < toSizeT file.tellg then none
            else if file.tellg = 0 then none
            else env.parse file.content (toSizeT file.tellg) (dirname env.pathAddr path)) ∧
      (loadFromFile env c path false).cache = c ∧
      (loadFromFile env c path false).trace ≠ [] ∧
      (loadFromData env c jsonData key resourcePath false).obj =
        env.parse jsonData jsonData.length resourcePath ∧
      (loadFromData env c jsonData key resourcePath false).cache = c ∧
      (loadFromData env c jsonData key resourcePath false).trace =
        [Event.parse jsonData jsonData.length resourcePath] := by
  have hd := loadFromData_miss env c jsonData key resourcePath false (Or.inl rfl)
  refine ⟨?_, ?_, ?_, ?_, ?_, ?_⟩
  · unfold loadFromFile
    simp only [Bool.false_eq_true, if_false]
    cases env.files (c_str path) with
    | none => rfl
    | some file =>
      simp only
      split
      · rfl
      · split <;> rfl
  · rcases loadFromFile_cache_cases env c path false with h | ⟨x, hx, _⟩
    · exact h
    · exact Bool.noConfusion hx
  · unfold loadFromFile
    simp only [Bool.false_eq_true, if_false]
    cases env.files (c_str path) with
    | none => simp
    | some file =>
      simp only
      split
      · simp
      · split <;> simp
  · rw [hd]
  · rw [hd]
    simp
  · rw [hd]

theorem loadFromData_hit (env : Env) (c : ModelCache) (jsonData key resourcePath : String)
    (x : Composition) (h : (c.find key).1 = some x) :
    loadFromData env c jsonData key resourcePath true = ⟨some x, c, []⟩ := by
  simp [loadFromData, h, ModelCache.find_snd]

theorem cached_after_loadFromData (env : Env) (c : ModelCache)
    (jsonData key resourcePath : String) (comp : Composition) (hcap : 0 < c.mcacheSize)
    (hfirst : (loadFromData env c jsonData key resourcePath true).obj = some comp) :
    (loadFromData env c jsonData key resourcePath true).cache.mcacheSize ≠ 0 ∧
      (loadFromData env c jsonData key resourcePath true).cache.mHash.find key =
        some (some comp) := by
  have h0 : c.mcacheSize ≠ 0 := Nat.pos_iff_ne_zero.mp hcap
  cases hf : (c.find key).1 with
  | some x =>
    rw [loadFromData_hit env c jsonData key resourcePath x hf] at hfirst ⊢
    have hx : x = comp := Option.some.inj hfirst
    rw [← hx]
    exact (ModelCache.find_fst_eq_some_iff c key x).mp hf
  | none =>
    rw [loadFromData_miss env c jsonData key resourcePath true (Or.inr hf)] at hfirst ⊢
    simp only at hfirst
    simp only [hfirst, Option.isSome_some, and_self, if_true]
    exact ⟨by rw [ModelCache.add_mcacheSize]; exact h0,
      ModelCache.find_add_self env.layout c key (some comp) h0⟩

/-- Claim C12, keyed caching of in-memory data: on a cache of nonzero capacity whose
lookup of `k` returns the null pointer, when the parser returns the composition `comp` on
`(jsonData, resourcePath)`, the load `loadFromData(jsonData, k, resourcePath, true)`
returns `comp` and `find(k)` returns `comp` afterwards; after any calls of the interface
after each of which `k` is still a key of the map, `loadFromData(jsonData2, k,
resourcePath2, true)` returns `comp` for all `jsonData2` and `resourcePath2`, with no
collaborator call and the cache left as it is. -/
theorem loadFromData_keyed_caching (env1 env2 : Env) (c : ModelCache)
    (jsonData key resourcePath jsonData2 resourcePath2 : String) (comp : Composition)
    (between : List Call) (hcap : 0 < c.mcacheSize) (hmiss : (c.find key).1 = none)
    (hparse : env1.parse jsonData jsonData.length resourcePath = some comp)
    (hkept : ∀ n, (runCalls (loadFromData env1 c jsonData key resourcePath true).cache
      (between.take n)).mHash.contains key) :
    (loadFromData env1 c jsonData key resourcePath true).obj = some comp ∧
      ((loadFromData env1 c jsonData key resourcePath true).cache.find key).1 = some comp ∧
      loadFromData env2
          (runCalls (loadFromData env1 c jsonData key resourcePath true).cache between)
          jsonData2 key resourcePath2 true =
        ⟨some comp,
          runCalls (loadFromData env1 c jsonData key resourcePath true).cache between, []⟩ := by
  have hfirst : (loadFromData env1 c jsonData key resourcePath true).obj = some comp := by
    rw [loadFromData_miss env1 c jsonData key resourcePath true (Or.inr hmiss)]
    exact hparse
  have hinv := cached_after_loadFromData env1 c jsonData key resourcePath comp hcap hfirst
  have hend := cached_runCalls between _ key comp hinv hkept
  refine ⟨hfirst, (ModelCache.find_fst_eq_some_iff _ key comp).mpr hinv, ?_⟩
  exact loadFromData_hit env2 _ jsonData2 key resourcePath2 comp
    ((ModelCache.find_fst_eq_some_iff _ key comp).mpr hend)

/-- Claim C12 on a concrete run: `k0` is loaded from data into the initial cache, a load
under another key and `configureModelCacheSize(1)` follow, and the second load comes with
other data and a parser that would return another composition. -/
theorem loadFromData_keyed_caching_witness :
    0 < ModelCache.initial.mcacheSize ∧ (ModelCache.initial.find "k0").1 = none ∧
      (envParsing 1).parse "{}" "{}".length "res/" = some ⟨1⟩ ∧
      (∀ n, (runCalls (loadFromData (envParsing 1) ModelCache.initial "{}" "k0" "res/" true).cache
        (callsBetween.take n)).mHash.contains "k0") ∧
      ((loadFromData (envParsing 1) ModelCache.initial "{}" "k0" "res/" true).obj = some ⟨1⟩ ∧
        ((loadFromData (envParsing 1) ModelCache.initial "{}" "k0" "res/" true).cache.find
          "k0").1 = some ⟨1⟩ ∧
        loadFromData (envParsing 9)
            (runCalls (loadFromData (envParsing 1) ModelCache.initial "{}" "k0" "res/" true).cache
              callsBetween)
            "[]" "k0" "other/" true =
          ⟨some ⟨1⟩,
            runCalls (loadFromData (envParsing 1) ModelCache.initial "{}" "k0" "res/" true).cache
              callsBetween, []⟩) :=
  have hkept : ∀ n,
      (runCalls (loadFromData (envParsing 1) ModelCache.initial "{}" "k0" "res/" true).cache
        (callsBetween.take n)).mHash.contains "k0" := by
    intro n
    rcases n with _ | _ | n
    · decide
    · decide
    · have ht : callsBetween.take (n + 1 + 1) = callsBetween := by
        simp [callsBetween]
      rw [ht]
      decide
  ⟨by decide, by decide, rfl, hkept,
    loadFromData_keyed_caching (envParsing 1) (envParsing 9) ModelCache.initial "{}" "k0"
      "res/" "[]" "other/" ⟨1⟩ callsBetween (by decide) (by decide) rfl hkept⟩

/-- Claim C20, shared key space: on a cache of nonzero capacity, once
`loadFromData(jsonData, p, resourcePath, true)` has returned the composition `comp` and
`p` has stayed a key of the map through the calls that follow, `loadFromFile(p, true)`
returns `comp` with no collaborator call (no file is opened, whether one exists or not,
and the parser is not invoked); and once `loadFromFile(p, true)` has returned `comp` and
`p` has stayed a key, `loadFromData(jsonData2, p, resourcePath2, true)` returns `comp`
whatever `jsonData2` is, again with no collaborator call. Both leave the cache as it
is. -/
theorem file_and_data_loads_share_keys (env1 env2 : Env) (c : ModelCache)
    (p jsonData resourcePath jsonData2 resourcePath2 : String) (comp : Composition)
    (between : List Call) (hcap : 0 < c.mcacheSize) :
    ((loadFromData env1 c jsonData p resourcePath true).obj = some comp →
        (∀ n, (runCalls (loadFromData env1 c jsonData p resourcePath true).cache
          (between.take n)).mHash.contains p) →
        loadFromFile env2
            (runCalls (loadFromData env1 c jsonData p resourcePath true).cache between) p true =
          ⟨some comp,
            runCalls (loadFromData env1 c jsonData p resourcePath true).cache between, []⟩) ∧
      ((loadFromFile env1 c p true).obj = some comp →
        (∀ n, (runCalls (loadFromFile env1 c p true).cache
          (between.take n)).mHash.contains p) →
        loadFromData env2 (runCalls (loadFromFile env1 c p true).cache between)
            jsonData2 p resourcePath2 true =
          ⟨some comp, runCalls (loadFromFile env1 c p true).cache between, []⟩) := by
  refine ⟨?_, ?_⟩
  · intro hfirst hkept
    have hinv := cached_after_loadFromData env1 c jsonData p resourcePath comp hcap hfirst
    have hend := cached_runCalls between _ p comp hinv hkept
    exact loadFromFile_hit env2 _ p comp ((ModelCache.find_fst_eq_some_iff _ p comp).mpr hend)
  · intro hfirst hkept
    have hinv := cached_after_loadFromFile env1 c p comp hcap hfirst
    have hend := cached_runCalls between _ p comp hinv hkept
    exact loadFromData_hit env2 _ jsonData2 p resourcePath2 comp
      ((ModelCache.find_fst_eq_some_iff _ p comp).mpr hend)

/-- Claim C20 on concrete runs from the initial cache: data loaded under the key
`anim/a.json` is returned by a file load when no file opens, and the composition of the
file `anim/a.json` is returned by a data load with other data. -/
theorem file_and_data_loads_share_keys_witness :
    0 < ModelCache.initial.mcacheSize ∧
      (envParsing 5).files (c_str "anim/a.json") = none ∧
      (loadFromData (envParsing 1) ModelCache.initial "{}" "anim/a.json" "res/" true).obj =
        some ⟨1⟩ ∧
      loadFromFile (envParsing 5)
          (runCalls
            (loadFromData (envParsing 1) ModelCache.initial "{}" "anim/a.json" "res/" true).cache
            [])
          "anim/a.json" true =
        ⟨some ⟨1⟩,
          runCalls
            (loadFromData (envParsing 1) ModelCache.initial "{}" "anim/a.json" "res/" true).cache
            [], []⟩ ∧
      (loadFromFile (envFile "anim/a.json" "{}" 1) ModelCache.initial "anim/a.json" true).obj =
        some ⟨1⟩ ∧
      loadFromData (envParsing 5)
          (runCalls
            (loadFromFile (envFile "anim/a.json" "{}" 1) ModelCache.initial "anim/a.json"
              true).cache [])
          "[]" "anim/a.json" "other/" true =
        ⟨some ⟨1⟩,
          runCalls
            (loadFromFile (envFile "anim/a.json" "{}" 1) ModelCache.initial "anim/a.json"
              true).cache [], []⟩ :=
  ⟨by decide, by decide, by decide,
    (file_and_data_loads_share_keys (envParsing 1) (envParsing 5) ModelCache.initial
      "anim/a.json" "{}" "res/" "[]" "other/" ⟨1⟩ [] (by decide)).1 (by decide)
      (fun n => by rw [List.take_nil]; decide),
    by decide,
    (file_and_data_loads_share_keys (envFile "anim/a.json" "{}" 1) (envParsing 5)
      ModelCache.initial "anim/a.json" "{}" "res/" "[]" "other/" ⟨1⟩ [] (by decide)).2
      (by decide) (fun n => by rw [List.take_nil]; decide)⟩

/-- Adding new, pairwise distinct keys while there is room erases nothing. -/
theorem runAdds_distinct (calls : List AddCall) (c : ModelCache)
    (hroom : c.mHash.size + calls.length ≤ c.mcacheSize)
    (hnd : (calls.map AddCall.key).Nodup)
    (hnew : ∀ a ∈ calls, ¬ c.mHash.contains a.key) :
    (runAdds c calls).mcacheSize = c.mcacheSize ∧
      (runAdds c calls).mHash.size = c.mHash.size + calls.length ∧
      (∀ k, c.mHash.contains k → (runAdds c calls).mHash.find k = c.mHash.find k) ∧
      (∀ a ∈ calls, (runAdds c calls).mHash.find a.key = some a.value) ∧
      (∀ k, ¬ c.mHash.contains k → (∀ a ∈ calls, a.key ≠ k) →
        ¬ (runAdds c calls).mHash.contains k) := by
  induction calls generalizing c with
  | nil =>
    refine ⟨rfl, rfl, fun _ _ => rfl, ?_, fun _ h _ => h⟩
    intro a ha
    simp at ha
  | cons a rest ih =>
    have hlen : (a :: rest).length = rest.length + 1 := rfl
    rw [hlen] at hroom
    have h0 : c.mcacheSize ≠ 0 := by omega
    have hne : c.mcacheSize ≠ c.mHash.size := by omega
    have hka : ¬ c.mHash.contains a.key := hnew a (List.mem_cons_self a rest)
    have hm := ModelCache.add_mHash_of_ne_size a.layout c a.key a.value h0 hne
    have hcap : (c.add a.layout a.key a.value).mcacheSize = c.mcacheSize :=
      ModelCache.add_mcacheSize a.layout c a.key a.value
    have hsize : (c.add a.layout a.key a.value).mHash.size = c.mHash.size + 1 := by
      rw [hm]
      exact UnorderedMap.size_assign_of_not_contains a.layout c.mHash a.value hka
    have hother : ∀ k, k ≠ a.key →
        (c.add a.layout a.key a.value).mHash.find k = c.mHash.find k := by
      intro k hk
      rw [hm]
      exact UnorderedMap.find_assign_other a.layout c.mHash a.value hk
    have hself : (c.add a.layout a.key a.value).mHash.find a.key = some a.value := by
      rw [hm]
      exact UnorderedMap.find_assign_self a.layout c.mHash a.key a.value
    have hnd2 : a.key ∉ rest.map AddCall.key ∧ (rest.map AddCall.key).Nodup := by
      simpa using hnd
    have hroom2 : (c.add a.layout a.key a.value).mHash.size + rest.length ≤
        (c.add a.layout a.key a.value).mcacheSize := by
      rw [hcap, hsize]
      omega
    have hnew2 : ∀ b ∈ rest, ¬ (c.add a.layout a.key a.value).mHash.contains b.key := by
      intro b hb
      have hba : b.key ≠ a.key := by
        intro h
        apply hnd2.1
        rw [← h]
        exact List.mem_map_of_mem AddCall.key hb
      rw [UnorderedMap.contains_iff_find, hother b.key hba, ← UnorderedMap.contains_iff_find]
      exact hnew b (List.mem_cons_of_mem a hb)
    have hrun : runAdds c (a :: rest) = runAdds (c.add a.layout a.key a.value) rest := rfl
    obtain ⟨i1, i2, i3, i4, i5⟩ := ih (c.add a.layout a.key a.value) hroom2 hnd2.2 hnew2
    rw [hrun]
    refine ⟨i1.trans hcap, ?_, ?_, ?_, ?_⟩
    · rw [i2, hsize, hlen]
      omega
    · intro k hk
      have hk2 : k ≠ a.key := fun h => hka (h ▸ hk)
      have hk3 : (c.add a.layout a.key a.value).mHash.contains k := by
        rw [UnorderedMap.contains_iff_find, hother k hk2, ← UnorderedMap.contains_iff_find]
        exact hk
      rw [i3 k hk3, hother k hk2]
    · intro b hb
      rcases List.mem_cons.mp hb with h | h
      · have hk3 : (c.add a.layout a.key a.value).mHash.contains a.key := by
          rw [UnorderedMap.contains_iff_find, hself]
          exact Option.some_ne_none _
        rw [h, i3 a.key hk3, hself]
      · exact i4 b h
    · intro k hk hall
      have hk2 : k ≠ a.key := fun h => hall a (List.mem_cons_self a rest) h.symm
      apply i5 k
      · rw [UnorderedMap.contains_iff_find, hother k hk2, ← UnorderedMap.contains_iff_find]
        exact hk
      · intro b hb
        exact hall b (List.mem_cons_of_mem a hb)

/-- The number of entries after `add` of an absent key into a map that holds exactly
`mcacheSize` entries. -/
theorem ModelCache.size_add_full_new (L : Layout) (c : ModelCache) (key : String)
    (v : Option Composition) (h0 : c.mcacheSize ≠ 0) (hfull : c.mHash.size = c.mcacheSize)
    (hk : ¬ c.mHash.contains key) : (c.add L key v).mHash.size = c.mcacheSize := by
  have hke : ¬ c.mHash.eraseBegin.contains key :=
    fun h => hk (UnorderedMap.contains_of_eraseBegin c.mHash h)
  rw [ModelCache.add_mHash L c key v h0, if_pos hfull.symm,
    UnorderedMap.size_assign_of_not_contains L _ v hke, UnorderedMap.size_eraseBegin]
  omega

/-- Claim C14, default capacity: in the initial state the map is empty and the capacity is
10; after `add` of 10 pairwise distinct keys `find` returns for each of them the value
added with it, and the map holds 10 entries; after `add` of an eleventh distinct key the
map still holds exactly 10 entries. -/
theorem default_capacity_is_ten (calls : List AddCall) (extra : AddCall)
    (hlen : calls.length = 10) (hnd : (calls.map AddCall.key).Nodup)
    (hextra : extra.key ∉ calls.map AddCall.key) :
    ModelCache.initial.mcacheSize = 10 ∧ ModelCache.initial.mHash.entries = [] ∧
      (∀ a ∈ calls, ((runAdds ModelCache.initial calls).find a.key).1 = a.value) ∧
      (runAdds ModelCache.initial calls).mHash.size = 10 ∧
      (runAdds ModelCache.initial (calls ++ [extra])).mHash.size = 10 := by
  have hempty : ∀ k, ¬ ModelCache.initial.mHash.contains k := by
    intro k hk
    simp [ModelCache.initial, UnorderedMap.empty, UnorderedMap.contains, keysOf] at hk
  have hroom : ModelCache.initial.mHash.size + calls.length ≤
      ModelCache.initial.mcacheSize := by
    rw [hlen]
    decide
  obtain ⟨r1, r2, _, r4, r5⟩ :=
    runAdds_distinct calls ModelCache.initial hroom hnd (fun a _ => hempty a.key)
  have hcap : (runAdds ModelCache.initial calls).mcacheSize = 10 := r1
  have hsize : (runAdds ModelCache.initial calls).mHash.size = 10 := by
    rw [r2, hlen]
    rfl
  refine ⟨rfl, rfl, ?_, hsize, ?_⟩
  · intro a ha
    unfold ModelCache.find
    rw [hcap, r4 a ha]
    rfl
  · have hrun : runAdds ModelCache.initial (calls ++ [extra]) =
        (runAdds ModelCache.initial calls).add extra.layout extra.key extra.value := by
      simp [runAdds, List.foldl_append]
    have hk : ¬ (runAdds ModelCache.initial calls).mHash.contains extra.key := by
      apply r5 extra.key (hempty extra.key)
      intro a ha h
      apply hextra
      rw [← h]
      exact List.mem_map_of_mem AddCall.key ha
    rw [hrun, ModelCache.size_add_full_new extra.layout _ extra.key extra.value
      (by rw [hcap]; decide) (by rw [hsize, hcap]) hk, hcap]

/-- Claim C14 on the keys `k0` to `k9`, then `k10`. -/
theorem default_capacity_is_ten_witness :
    tenCalls.length = 10 ∧ (tenCalls.map AddCall.key).Nodup ∧
      "k10" ∉ tenCalls.map AddCall.key ∧
      (ModelCache.initial.mcacheSize = 10 ∧ ModelCache.initial.mHash.entries = [] ∧
        (∀ a ∈ tenCalls, ((runAdds ModelCache.initial tenCalls).find a.key).1 = a.value) ∧
        (runAdds ModelCache.initial tenCalls).mHash.size = 10 ∧
        (runAdds ModelCache.initial
          (tenCalls ++ [⟨Layout.front, "k10", some ⟨10⟩⟩])).mHash.size = 10) :=
  ⟨by decide, by decide, by decide,
    default_capacity_is_ten tenCalls ⟨Layout.front, "k10", some ⟨10⟩⟩
      (by decide) (by decide) (by decide)⟩

/-! ## Lemmas on `dirname` -/

theorem strrchr_eq_none {c : Char} {l : List Char} (h : c ∉ l) : strrchr c l = none := by
  induction l with
  | nil => rfl
  | cons x xs ih =>
    have h1 : ¬ x = c := fun e => h (e ▸ List.mem_cons_self x xs)
    have h2 : c ∉ xs := fun e => h (List.mem_cons_of_mem x e)
    simp [strrchr, ih h2, h1]

theorem strrchr_split (c : Char) (pre rest : List Char) (h : c ∉ rest) :
    strrchr c (pre ++ c :: rest) = some pre.length := by
  induction pre with
  | nil => simp [strrchr, strrchr_eq_none h]
  | cons x xs ih => simp [strrchr, ih]

theorem c_str_data_of_no_NUL (s : String) (h : NUL ∉ s.data) : (c_str s).data = s.data := by
  unfold c_str
  show List.takeWhile (fun ch => decide (ch ≠ NUL)) s.data = s.data
  rw [List.takeWhile_eq_self_iff]
  intro x hx
  have : x ≠ NUL := fun e => h (e ▸ hx)
  simpa using this

theorem dirname_of_strrchr (base : Nat) (path : String) (i : Nat)
    (h : strrchr '/' (c_str path).data = some i) :
    dirname base path =
      String.mk (path.data.take ((toInt32 ((i : Int) + 1) % 2 ^ 64).toNat)) := by
  unfold dirname
  simp only [h]
  have e : (base : Int) + (i : Int) + 1 - (base : Int) = (i : Int) + 1 := by ring
  rw [e]

theorem toInt32_small (i : Nat) (h : i + 1 < 2 ^ 31) :
    (toInt32 ((i : Int) + 1) % 2 ^ 64).toNat = i + 1 := by
  unfold toInt32
  omega

theorem toInt32_wrap (i : Nat) (h : i + 1 = 2 ^ 31) :
    (toInt32 ((i : Int) + 1) % 2 ^ 64).toNat = 2 ^ 64 - 2 ^ 31 := by
  unfold toInt32
  omega

/-- A list that contains `c` splits at the last occurrence of `c`. -/
theorem split_at_last (c : Char) (l : List Char) (h : c ∈ l) :
    ∃ pre rest, l = pre ++ c :: rest ∧ c ∉ rest := by
  induction l with
  | nil => simp at h
  | cons x xs ih =>
    by_cases hxs : c ∈ xs
    · obtain ⟨pre, rest, hl, hr⟩ := ih hxs
      exact ⟨x :: pre, rest, by rw [hl]; rfl, hr⟩
    · have hx : c = x := by
        rcases List.mem_cons.mp h with h1 | h1
        · exact h1
        · exact absurd h1 hxs
      exact ⟨[], xs, by rw [hx]; rfl, hxs⟩

/-- The value of `dirname` on a path without NUL, split at its last slash: the first
`len` characters, where `len` is the offset after the slash taken through `int` and
`size_type`. -/
theorem dirname_split (base : Nat) (path : String) (pre rest : List Char)
    (hnul : NUL ∉ path.data) (hsplit : path.data = pre ++ '/' :: rest) (hrest : '/' ∉ rest) :
    dirname base path =
      String.mk (path.data.take ((toInt32 ((pre.length : Int) + 1) % 2 ^ 64).toNat)) := by
  apply dirname_of_strrchr
  rw [c_str_data_of_no_NUL path hnul, hsplit]
  exact strrchr_split '/' pre rest hrest

/-- The path made of `n` letters, a slash and one more letter, when `n + 1 = 2 ^ 31`:
`dirname` returns the whole path. -/
theorem dirname_overflow (base n : Nat) (hn : n + 1 = 2 ^ 31) :
    '/' ∈ List.replicate n 'a' ++ ['/', 'x'] ∧
      NUL ∉ List.replicate n 'a' ++ ['/', 'x'] ∧
      dirname base (String.mk (List.replicate n 'a' ++ ['/', 'x'])) =
        String.mk (List.replicate n 'a' ++ ['/', 'x']) ∧
      (List.replicate n 'a' ++ ['/', 'x']).getLast? = some 'x' := by
  have hnul : NUL ∉ List.replicate n 'a' ++ ['/', 'x'] := by
    intro h
    rcases List.mem_append.mp h with h1 | h1
    · have := List.eq_of_mem_replicate h1
      revert this
      decide
    · revert h1
      decide
  refine ⟨by simp, hnul, ?_, by simp⟩
  have hrest : '/' ∉ ['x'] := by decide
  rw [dirname_split base (String.mk (List.replicate n 'a' ++ ['/', 'x']))
    (List.replicate n 'a') ['x'] hnul rfl hrest]
  have hlen : (List.replicate n 'a').length = n := List.length_replicate n 'a'
  rw [hlen, toInt32_wrap n hn]
  congr 1
  apply List.take_of_length_le
  simp only [List.length_append, List.length_replicate, List.length_cons, List.length_nil]
  omega

/-! ## The claims on `dirname` and on empty data -/

/-- Claim C18 as stated fails: on the path of `2 ^ 31 - 1` letters followed by `/x`, the
offset after the slash does not fit `int`; `len` is negative, its conversion to `size_type`
exceeds the length of the path, and `dirname` returns the whole path, which ends with `x`
and is not the part up to the last slash. -/
theorem dirname_long_path_returns_whole_path :
    '/' ∈ longPath.data ∧ NUL ∉ longPath.data ∧ dirname 4096 longPath = longPath ∧
      (dirname 4096 longPath).data.getLast? = some 'x' ∧
      ¬ ∃ rest, longPath.data = (dirname 4096 longPath).data ++ rest ∧
        (dirname 4096 longPath).data.getLast? = some '/' ∧ '/' ∉ rest := by
  obtain ⟨h1, h2, h3, h4⟩ := dirname_overflow 4096 (2 ^ 31 - 1) (by norm_num)
  have h3b : dirname 4096 longPath = longPath := h3
  have h4b : longPath.data.getLast? = some 'x' := h4
  refine ⟨h1, h2, h3b, ?_, ?_⟩
  · rw [h3b]
    exact h4b
  · rintro ⟨rest, _, hlast, _⟩
    rw [h3b, h4b] at hlast
    revert hlast
    decide

/-- Claim C18, amended: a path without NUL that contains a slash splits into the part
`dir` up to and including its last slash and a rest without slash, and `dirname` returns
`dir` whenever `dir` has fewer than `2 ^ 31` characters, whatever the address of the path
buffer. -/
theorem dirname_directory_part (base : Nat) (path : String) (hslash : '/' ∈ path.data)
    (hnul : NUL ∉ path.data) :
    ∃ dir rest, path.data = dir ++ rest ∧ dir.getLast? = some '/' ∧ '/' ∉ rest ∧
      (dir.length < 2 ^ 31 → dirname base path = String.mk dir) := by
  obtain ⟨pre, rest, hsplit, hrest⟩ := split_at_last '/' path.data hslash
  refine ⟨pre ++ ['/'], rest, by rw [hsplit]; simp, by simp, hrest, ?_⟩
  intro hlen
  have hlen2 : pre.length + 1 < 2 ^ 31 := by simpa using hlen
  rw [dirname_split base path pre rest hnul hsplit hrest, toInt32_small pre.length hlen2,
    hsplit]
  congr 1
  have e : pre ++ '/' :: rest = (pre ++ ['/']) ++ rest := by simp
  rw [e]
  have hl : (pre ++ ['/']).length = pre.length + 1 := by simp
  rw [← hl, List.take_left]

/-- Claim C18, amended, on the path `foo/bar/x.json`. -/
theorem dirname_directory_part_witness :
    '/' ∈ "foo/bar/x.json".data ∧ NUL ∉ "foo/bar/x.json".data ∧
      dirname 4096 "foo/bar/x.json" = "foo/bar/" ∧
      ∃ dir rest, "foo/bar/x.json".data = dir ++ rest ∧ dir.getLast? = some '/' ∧
        '/' ∉ rest ∧ (dir.length < 2 ^ 31 → dirname 4096 "foo/bar/x.json" = String.mk dir) :=
  ⟨by decide, by decide, by decide,
    dirname_directory_part 4096 "foo/bar/x.json" (by decide) (by decide)⟩

/-- For zero-length data and a key whose lookup returns the null pointer, both overloads
of `loadFromData` call the parser on the data with length 0 and return its result; when
the parser returns the null pointer the load returns the null pointer and the cache is
left as it is. -/
theorem loadFromData_empty_data (env : Env) (c : ModelCache)
    (jsonData key resourcePath : String) (filter : ColorFilter) (cachePolicy : Bool)
    (hempty : jsonData.length = 0) (hmiss : (c.find key).1 = none) :
    ((loadFromData env c jsonData key resourcePath cachePolicy).obj =
          env.parse jsonData 0 resourcePath ∧
        (loadFromData env c jsonData key resourcePath cachePolicy).trace =
          [Event.parse jsonData 0 resourcePath]) ∧
      ((loadFromDataFilter env c jsonData resourcePath filter).obj =
          env.parseFilter jsonData 0 resourcePath filter ∧
        (loadFromDataFilter env c jsonData resourcePath filter).trace =
          [Event.parseFilter jsonData 0 resourcePath filter]) ∧
      (env.parse jsonData 0 resourcePath = none →
        (loadFromData env c jsonData key resourcePath cachePolicy).obj = none ∧
          (loadFromData env c jsonData key resourcePath cachePolicy).cache = c) ∧
      (env.parseFilter jsonData 0 resourcePath filter = none →
        (loadFromDataFilter env c jsonData resourcePath filter).obj = none ∧
          (loadFromDataFilter env c jsonData resourcePath filter).cache = c) := by
  have hd := loadFromData_miss env c jsonData key resourcePath cachePolicy (Or.inr hmiss)
  rw [hempty] at hd
  refine ⟨⟨by rw [hd], by rw [hd]⟩, ⟨?_, ?_⟩, ?_, ?_⟩
  · show env.parseFilter jsonData jsonData.length resourcePath filter = _
    rw [hempty]
  · show [Event.parseFilter jsonData jsonData.length resourcePath filter] = _
    rw [hempty]
  · intro hp
    rw [hd, hp]
    simp
  · intro hp
    refine ⟨?_, rfl⟩
    show env.parseFilter jsonData jsonData.length resourcePath filter = none
    rw [hempty]
    exact hp

/-- Claim C19, empty in-memory data, with the parser under the contract of the
specification (`specParse`, `specParseFilter`: zero-length data yields an absent result):
for a key whose lookup returns the null pointer, `loadFromData` with zero-length data
returns the null pointer, in the keyed overload and in the color-filter overload, and
leaves the cache as it is. That is the result of `loadFromFile` for a file that does not
open and for a file of zero bytes. -/
theorem loadFromData_empty_data_absent (env : Env) (c : ModelCache)
    (jsonData key resourcePath path : String) (filter : ColorFilter) (cachePolicy : Bool)
    (wellFormed : String → Nat → Bool) (build : String → String → Composition)
    (buildFilter : String → String → ColorFilter → Composition)
    (hparse : env.parse = specParse wellFormed build)
    (hparseFilter : env.parseFilter = specParseFilter wellFormed buildFilter)
    (hempty : jsonData.length = 0) (hmiss : (c.find key).1 = none) :
    ((loadFromData env c jsonData key resourcePath cachePolicy).obj = none ∧
        (loadFromData env c jsonData key resourcePath cachePolicy).cache = c) ∧
      ((loadFromDataFilter env c jsonData resourcePath filter).obj = none ∧
        (loadFromDataFilter env c jsonData resourcePath filter).cache = c) ∧
      ((cachePolicy = false ∨ (c.find path).1 = none) → env.files (c_str path) = none →
        (loadFromFile env c path cachePolicy).obj =
          (loadFromData env c jsonData key resourcePath cachePolicy).obj) ∧
      ((cachePolicy = false ∨ (c.find path).1 = none) →
        ∀ file, env.files (c_str path) = some file → file.tellg = 0 →
          (loadFromFile env c path cachePolicy).obj =
            (loadFromData env c jsonData key resourcePath cachePolicy).obj) := by
  have hd := loadFromData_empty_data env c jsonData key resourcePath filter cachePolicy
    hempty hmiss
  have hp : env.parse jsonData 0 resourcePath = none := by
    rw [hparse]
    simp [specParse]
  have hpf : env.parseFilter jsonData 0 resourcePath filter = none := by
    rw [hparseFilter]
    simp [specParseFilter]
  have hkeyed := hd.2.2.1 hp
  refine ⟨hkeyed, hd.2.2.2 hpf, ?_, ?_⟩
  · intro hserved hopen
    rw [(loadFromFile_no_content env c path cachePolicy hserved).1 hopen, hkeyed.1]
  · intro hserved file hopen hzero
    rw [(loadFromFile_no_content env c path cachePolicy hserved).2 file hopen hzero,
      hkeyed.1]

/-- Claim C19 on the cache that holds `b` and `a`, with a parser under the contract of
the specification that accepts the data `{}`: empty data under the key `k`, next to the
file `x`, which has zero bytes. -/
theorem loadFromData_empty_data_absent_witness :
    (envSpec "x" (FileStream.regular "") 5).parse "{}" 2 "res/" = some ⟨5⟩ ∧
      "".length = 0 ∧ (cacheBA.find "k").1 = none ∧
      (((loadFromData (envSpec "x" (FileStream.regular "") 5) cacheBA "" "k" "res/"
            true).obj = none ∧
          (loadFromData (envSpec "x" (FileStream.regular "") 5) cacheBA "" "k" "res/"
            true).cache = cacheBA) ∧
        ((loadFromDataFilter (envSpec "x" (FileStream.regular "") 5) cacheBA "" "res/"
            ⟨0⟩).obj = none ∧
          (loadFromDataFilter (envSpec "x" (FileStream.regular "") 5) cacheBA "" "res/"
            ⟨0⟩).cache = cacheBA) ∧
        ((true = false ∨ (cacheBA.find "x").1 = none) →
          (envSpec "x" (FileStream.regular "") 5).files (c_str "x") = none →
          (loadFromFile (envSpec "x" (FileStream.regular "") 5) cacheBA "x" true).obj =
            (loadFromData (envSpec "x" (FileStream.regular "") 5) cacheBA "" "k" "res/"
              true).obj) ∧
        ((true = false ∨ (cacheBA.find "x").1 = none) →
          ∀ file, (envSpec "x" (FileStream.regular "") 5).files (c_str "x") = some file →
            file.tellg = 0 →
            (loadFromFile (envSpec "x" (FileStream.regular "") 5) cacheBA "x" true).obj =
              (loadFromData (envSpec "x" (FileStream.regular "") 5) cacheBA "" "k" "res/"
                true).obj)) :=
  ⟨by decide, by decide, by decide,
    loadFromData_empty_data_absent (envSpec "x" (FileStream.regular "") 5) cacheBA "" "k"
      "res/" "x" ⟨0⟩ true (fun str _ => str = "{}") (fun _ _ => ⟨5⟩) (fun _ _ _ => ⟨5⟩)
      rfl rfl (by decide) (by decide)⟩

end Rlottie
